import Mathlib

/-!
Shallow embedding of the CPU scheduling simulator's core algorithms
(`fcfs`, `sjf`, `priorityScheduling`, `roundRobin`) from the repository's
algorithm modules, together with proofs of the specified properties.

Times, identifiers and priorities are JS numbers used as integers by the
simulator; they are embedded as `Int`.  Stateful `while` loops are embedded
as fuelled recursive functions; for each loop we prove that the chosen fuel
reaches the loop's exit condition (the termination claims).  JS objects used
as id-keyed maps (`resultMap`, `finishTime`) are embedded as association
lists where the most recent write wins on lookup.
-/

namespace Sched

/-- An input process record `{ id, arrivalTime, burstTime, priority }`. -/
structure Process where
  id : Int
  arrivalTime : Int
  burstTime : Int
  priority : Int
deriving DecidableEq, Repr, Inhabited

/-- A timeline ("Gantt") entry `{ pid, start, end }` (the source's `end`
field is named `stop` because `end` is a Lean keyword). -/
structure Interval where
  pid : Int
  start : Int
  stop : Int
deriving DecidableEq, Repr, Inhabited

/-- A per-process result record. -/
structure ProcResult where
  id : Int
  arrivalTime : Int
  burstTime : Int
  priority : Int
  waitingTime : Int
  turnaroundTime : Int
deriving DecidableEq, Repr, Inhabited

/-- Well-formed input per the spec's data model: arrival time ≥ 0,
burst time ≥ 1, priority ≥ 1, and unique identifiers (the data model calls
the identifier unique; duplicate identifiers are caller error). -/
def WellFormed (processes : List Process) : Prop :=
  (∀ p ∈ processes, 0 ≤ p.arrivalTime ∧ 1 ≤ p.burstTime ∧ 1 ≤ p.priority) ∧
    (processes.map Process.id).Nodup

instance (processes : List Process) : Decidable (WellFormed processes) := by
  unfold WellFormed; infer_instance

/-- Build a result record for process `p` that started at `start` and
finished at `stop` (waiting = start − arrival, turnaround = end − arrival). -/
def mkResult (p : Process) (start stop : Int) : ProcResult :=
  { id := p.id, arrivalTime := p.arrivalTime, burstTime := p.burstTime,
    priority := p.priority, waitingTime := start - p.arrivalTime,
    turnaroundTime := stop - p.arrivalTime }

/-- The comparator `(a, b) => a.arrivalTime - b.arrivalTime || a.id - b.id`
as a boolean `≤` on the lexicographic key (arrivalTime, id); JS `sort` is
stable, as is the insertion sort used to model it (`List.insertionSort r`
places each element before the first existing element it relates to, so
elements with equal keys keep their original order). -/
def arrivalIdLe (a b : Process) : Bool :=
  decide (a.arrivalTime < b.arrivalTime ∨
    (a.arrivalTime = b.arrivalTime ∧ a.id ≤ b.id))

/-- `[...processes].sort((a, b) => a.arrivalTime - b.arrivalTime || a.id - b.id)` -/
def fcfsSorted (processes : List Process) : List Process :=
  List.insertionSort (fun a b => arrivalIdLe a b = true) processes

/-- The `for (const p of sorted)` loop of `fcfs`, with the clock passed
explicitly; emitted intervals and results are returned in push order. -/
def fcfsRun : Int → List Process → List Interval × List ProcResult
  | _, [] => ([], [])
  | currentTime, p :: rest =>
    let start := if currentTime < p.arrivalTime then p.arrivalTime else currentTime
    let stop := start + p.burstTime
    let rec_ := fcfsRun stop rest
    (⟨p.id, start, stop⟩ :: rec_.1, mkResult p start stop :: rec_.2)

/-- Output shape of `fcfs` / `roundRobin`: `{ gantt, results }`. -/
structure SimOutput where
  gantt : List Interval
  results : List ProcResult
deriving DecidableEq, Repr

/-- Output shape of `sjf`: results are obtained by id lookup in
`resultMap`, so a missing id yields `undefined` (`none`). -/
structure SJFOutput where
  gantt : List Interval
  results : List (Option ProcResult)
deriving DecidableEq, Repr

/-- Output shape of `priorityScheduling`: additionally `starvationRisk`. -/
structure PriorityOutput where
  gantt : List Interval
  results : List (Option ProcResult)
  starvationRisk : Bool
deriving DecidableEq, Repr

/-- First Come First Served. -/
def fcfs (processes : List Process) : SimOutput :=
  let run := fcfsRun 0 (fcfsSorted processes)
  ⟨run.1, run.2⟩

/-- The SJF selection comparator
`a.burstTime - b.burstTime || a.arrivalTime - b.arrivalTime || a.id - b.id`
as a strict order: `sjfBetter a b` holds when `a` sorts strictly before `b`. -/
def sjfBetter (a b : Process) : Bool :=
  decide (a.burstTime < b.burstTime ∨ (a.burstTime = b.burstTime ∧
    (a.arrivalTime < b.arrivalTime ∨ (a.arrivalTime = b.arrivalTime ∧ a.id < b.id))))

/-- The Priority selection comparator
`a.priority - b.priority || a.arrivalTime - b.arrivalTime || a.id - b.id`
as a strict order. -/
def prioBetter (a b : Process) : Bool :=
  decide (a.priority < b.priority ∨ (a.priority = b.priority ∧
    (a.arrivalTime < b.arrivalTime ∨ (a.arrivalTime = b.arrivalTime ∧ a.id < b.id))))

/-- `available.sort(cmp)[0]` for a stable sort with strict comparator
`better`: the first element of the list that is minimal, i.e. the fold keeps
the current best unless a strictly better candidate appears. -/
def pickFirstMin (better : Process → Process → Bool) : List Process → Option Process
  | [] => none
  | p :: ps => some (ps.foldl (fun best q => if better q best then q else best) p)

/-- `remaining.filter(p => !p.done).sort((a, b) => a.arrivalTime - b.arrivalTime)[0].arrivalTime`:
the minimum arrival time of the pending processes (`0` on an empty list,
which the loops never consult). -/
def minArrival : List Process → Int
  | [] => 0
  | p :: ps => ps.foldl (fun a q => min a q.arrivalTime) p.arrivalTime

/-- The shared `while (completed < n)` loop of `sjf` and
`priorityScheduling`, parameterised by the selection comparator.  The
source's idle branch (`currentTime = next.arrivalTime; continue`) is merged
into the step: when no pending process has arrived the clock first jumps to
the minimum pending arrival time, after which the available set is
non-empty.  One fuel unit is spent per completed process; `pending` holds
the records with `!p.done`.  Returns the gantt chart and the `resultMap`
entries in write order (later writes deeper in the list).
`schedT` is the clock value at a decision point: unchanged if some pending
process has arrived, otherwise jumped to the earliest pending arrival
(`currentTime = next.arrivalTime`). -/
def schedT (pending : List Process) (currentTime : Int) : Int :=
  if (pending.filter (fun p => decide (p.arrivalTime ≤ currentTime))).isEmpty then
    minArrival pending
  else currentTime

def schedLoop (better : Process → Process → Bool) :
    Nat → List Process → Int → List Interval × List (Int × ProcResult)
  | 0, _, _ => ([], [])
  | fuel + 1, pending, currentTime =>
    if pending.isEmpty then ([], [])
    else
      let t := schedT pending currentTime
      match pickFirstMin better (pending.filter (fun p => decide (p.arrivalTime ≤ t))) with
      | none => ([], [])
      | some p =>
        let stop := t + p.burstTime
        let rest := schedLoop better fuel (pending.erase p) stop
        (⟨p.id, t, stop⟩ :: rest.1, (p.id, mkResult p t stop) :: rest.2)

/-- Lookup in a JS object embedded as a write-ordered association list:
the latest write wins. -/
def lookupLast (k : Int) (m : List (Int × ProcResult)) : Option ProcResult :=
  m.reverse.lookup k

/-- Shortest Job First (non-preemptive). -/
def sjf (processes : List Process) : SJFOutput :=
  let run := schedLoop sjfBetter processes.length processes 0
  ⟨run.1, processes.map (fun p => lookupLast p.id run.2)⟩

/-- `Object.values(resultMap)`: one entry per key, latest write winning
(iteration order is irrelevant to the `.some(...)` that consumes it).
The recursion is fuelled by the length of the map so that it stays
structural; the fuel is always sufficient. -/
def objValuesAux : Nat → List (Int × ProcResult) → List ProcResult
  | 0, _ => []
  | _, [] => []
  | fuel + 1, e :: rest =>
    e.2 :: objValuesAux fuel (rest.filter (fun x => decide (x.1 ≠ e.1)))

def objValues (m : List (Int × ProcResult)) : List ProcResult :=
  objValuesAux m.length m

/-- Priority scheduling (non-preemptive), with the starvation flag
`Object.values(resultMap).some(r => r.waitingTime > 3 * r.burstTime)`. -/
def priorityScheduling (processes : List Process) : PriorityOutput :=
  let run := schedLoop prioBetter processes.length processes 0
  let starvationRisk :=
    (objValues run.2.reverse).any (fun r => decide (3 * r.burstTime < r.waitingTime))
  ⟨run.1, processes.map (fun p => lookupLast p.id run.2), starvationRisk⟩

/-- Field access through an index into the input list (Round-Robin's
queue holds references to the per-run process copies; the embedding
addresses them by position in the input list). -/
def pidAt (ps : List Process) (i : Nat) : Int := (ps.getD i default).id

/-- Arrival time of the `i`-th input process. -/
def arrAt (ps : List Process) (i : Nat) : Int := (ps.getD i default).arrivalTime

/-- Burst time of the `i`-th input process. -/
def burstAt (ps : List Process) (i : Nat) : Int := (ps.getD i default).burstTime

/-- Round-Robin's initial `sorted` array, as indices:
`[...remaining].sort((a, b) => a.arrivalTime - b.arrivalTime || a.id - b.id)`.
the insertion sort is stable, like JS `sort`. -/
def rrSorted (ps : List Process) : List Nat :=
  List.insertionSort (fun i j =>
    decide (arrAt ps i < arrAt ps j ∨
      (arrAt ps i = arrAt ps j ∧ pidAt ps i ≤ pidAt ps j)) = true)
    (List.range ps.length)

/-- State of the Round-Robin loop: remaining time per process index,
emitted gantt entries, the `finishTime` map (latest write first), the
clock, the ready queue (process indices) and the `enqueued` id set
(as the list of ids in insertion order). -/
structure RRState where
  rem : Nat → Int
  gantt : List Interval
  finishTime : List (Int × Int)
  currentTime : Int
  queue : List Nat
  enqueued : List Int

/-- The source's repeated enqueue pattern
`for (const p of sorted) if (cond(p) && !enqueued.has(p.id)) { queue.push(p); enqueued.add(p.id) }`. -/
def enqueueIf (ps : List Process) (cond : Nat → Bool) (sorted : List Nat)
    (q : List Nat) (e : List Int) : List Nat × List Int :=
  sorted.foldl (fun qe i =>
    if cond i && !(qe.2.contains (pidAt ps i)) then
      (qe.1 ++ [i], qe.2 ++ [pidAt ps i])
    else qe) (q, e)

/-- `remaining.some(p => p.remainingTime > 0 && !enqueued.has(p.id))`. -/
def rrPending (ps : List Process) (s : RRState) : Bool :=
  (List.range ps.length).any (fun i =>
    decide (0 < s.rem i) && !(s.enqueued.contains (pidAt ps i)))

/-- `sorted.filter(p => !enqueued.has(p.id)).sort((a, b) => a.arrivalTime - b.arrivalTime)[0]`. -/
def rrNextArrival (ps : List Process) (s : RRState) : Option Nat :=
  (List.insertionSort (fun i j => decide (arrAt ps i ≤ arrAt ps j) = true)
    ((rrSorted ps).filter (fun i => !(s.enqueued.contains (pidAt ps i))))).head?

/-- One iteration of the Round-Robin `while` loop body (assuming the loop
guard held and, in the idle branch, `nextArrival` exists). -/
def rrStep (ps : List Process) (quantum : Int) (s : RRState) : RRState :=
  match s.queue with
  | [] =>
    match rrNextArrival ps s with
    | none => s
    | some j =>
      let t := arrAt ps j
      let qe := enqueueIf ps (fun i => decide (arrAt ps i ≤ t)) (rrSorted ps) [] s.enqueued
      { s with currentTime := t, queue := qe.1, enqueued := qe.2 }
  | i :: rest =>
    let r := s.rem i
    let execTime := min quantum r
    let start := s.currentTime
    let stop := start + execTime
    let r2 := r - execTime
    let qe := enqueueIf ps (fun j => decide (start < arrAt ps j ∧ arrAt ps j ≤ stop))
      (rrSorted ps) rest s.enqueued
    if 0 < r2 then
      { rem := fun j => if j = i then r2 else s.rem j,
        gantt := s.gantt ++ [⟨pidAt ps i, start, stop⟩],
        finishTime := s.finishTime, currentTime := stop,
        queue := qe.1 ++ [i], enqueued := qe.2 }
    else
      { rem := fun j => if j = i then r2 else s.rem j,
        gantt := s.gantt ++ [⟨pidAt ps i, start, stop⟩],
        finishTime := (pidAt ps i, stop) :: s.finishTime, currentTime := stop,
        queue := qe.1, enqueued := qe.2 }

/-- The fuelled Round-Robin `while` loop: exits when the guard fails
(queue empty and nothing pending) or on the idle branch's
`if (!nextArrival) break`. -/
def rrLoop (ps : List Process) (quantum : Int) : Nat → RRState → RRState
  | 0, s => s
  | fuel + 1, s =>
    if s.queue.isEmpty && !(rrPending ps s) then s
    else if s.queue.isEmpty && (rrNextArrival ps s).isNone then s
    else rrLoop ps quantum fuel (rrStep ps quantum s)

/-- Initial state: `remainingTime = burstTime`, clock `0`, and every
process with `arrivalTime <= 0` enqueued in `sorted` order. -/
def rrInit (ps : List Process) : RRState :=
  let qe := enqueueIf ps (fun i => decide (arrAt ps i ≤ 0)) (rrSorted ps) [] []
  { rem := fun i => burstAt ps i, gantt := [], finishTime := [],
    currentTime := 0, queue := qe.1, enqueued := qe.2 }

/-- Ceiling division on naturals. -/
def ceilDiv (a b : Nat) : Nat := (a + b - 1) / b

/-- Number of processes whose id is not yet in the `enqueued` set. -/
def rrNotEnq (ps : List Process) (e : List Int) : Nat :=
  ((List.range ps.length).filter (fun i => !(e.contains (pidAt ps i)))).length

/-- Total number of quantum slices still owed: `Σᵢ ⌈remᵢ / quantum⌉`. -/
def rrCeilSum (ps : List Process) (quantum : Int) (rem : Nat → Int) : Nat :=
  ((List.range ps.length).map (fun i => ceilDiv (rem i).toNat quantum.toNat)).sum

/-- Termination measure of the Round-Robin loop: twice the number of
not-yet-enqueued processes, plus the remaining slice count, plus the queue
length.  Every loop iteration strictly decreases it (for quantum ≥ 1). -/
def rrMeasure (ps : List Process) (quantum : Int) (s : RRState) : Nat :=
  2 * rrNotEnq ps s.enqueued + rrCeilSum ps quantum s.rem + s.queue.length

/-- Fuel that provably reaches the loop's exit condition: the measure of
the initial state (≤ 3·n + Σᵢ ⌈burstᵢ/quantum⌉). -/
def rrFuel (ps : List Process) (quantum : Int) : Nat :=
  rrMeasure ps quantum (rrInit ps)

/-- Round Robin. -/
def roundRobin (processes : List Process) (quantum : Int) : SimOutput :=
  let s := rrLoop processes quantum (rrFuel processes quantum) (rrInit processes)
  ⟨s.gantt, processes.map (fun p =>
    let ft := (s.finishTime.lookup p.id).getD s.currentTime
    { id := p.id, arrivalTime := p.arrivalTime, burstTime := p.burstTime,
      priority := p.priority, waitingTime := ft - p.arrivalTime - p.burstTime,
      turnaroundTime := ft - p.arrivalTime })⟩

/-- The four-process example input of the spec's §8. -/
def exInput : List Process :=
  [⟨1, 0, 5, 2⟩, ⟨2, 2, 3, 1⟩, ⟨3, 4, 8, 3⟩, ⟨4, 6, 2, 1⟩]

/-! ### Generic helper lemmas -/

theorem lookup_eq_none_iff {k : Int} : ∀ {m : List (Int × ProcResult)},
    m.lookup k = none ↔ k ∉ m.map Prod.fst := by
  intro m
  induction m with
  | nil => simp [List.lookup]
  | cons e rest ih =>
    by_cases hk : k = e.1
    · subst hk
      simp [List.lookup]
    · have hbeq : (k == e.1) = false := by simpa using hk
      simp only [List.lookup, hbeq, List.map_cons, List.mem_cons]
      rw [ih]
      constructor
      · intro h hc
        rcases hc with hc | hc
        · exact hk hc
        · exact h hc
      · intro h hc
        exact h (Or.inr hc)

theorem lookup_eq_some_mem {k : Int} {r : ProcResult} : ∀ {m : List (Int × ProcResult)},
    m.lookup k = some r → (k, r) ∈ m := by
  intro m
  induction m with
  | nil => simp [List.lookup]
  | cons e rest ih =>
    by_cases hk : k = e.1
    · subst hk
      simp only [List.lookup, beq_self_eq_true]
      intro h
      obtain rfl : e.2 = r := by simpa using h
      simp
    · have hbeq : (k == e.1) = false := by simpa using hk
      simp only [List.lookup, hbeq]
      intro h
      exact List.mem_cons_of_mem _ (ih h)

theorem lookupLast_eq_some_mem {k : Int} {r : ProcResult} {m : List (Int × ProcResult)}
    (h : lookupLast k m = some r) : (k, r) ∈ m := by
  have := lookup_eq_some_mem h
  simpa using this

theorem lookupLast_isSome {k : Int} {m : List (Int × ProcResult)}
    (h : k ∈ m.map Prod.fst) : ∃ r, lookupLast k m = some r := by
  unfold lookupLast
  cases hl : m.reverse.lookup k with
  | none =>
    rw [lookup_eq_none_iff] at hl
    exact absurd (by simpa using h) hl
  | some r => exact ⟨r, rfl⟩

theorem pickFirstMin_mem {better : Process → Process → Bool} :
    ∀ {l : List Process} {p : Process}, pickFirstMin better l = some p → p ∈ l := by
  have key : ∀ (l : List Process) (b : Process),
      l.foldl (fun best q => if better q best then q else best) b = b ∨
        l.foldl (fun best q => if better q best then q else best) b ∈ l := by
    intro l
    induction l with
    | nil => intro b; exact Or.inl rfl
    | cons q rest ih =>
      intro b
      simp only [List.foldl_cons]
      by_cases hb : better q b
      · simp only [if_pos hb]
        rcases ih q with h | h
        · exact Or.inr (by simp [h])
        · exact Or.inr (List.mem_cons_of_mem _ h)
      · simp only [if_neg hb]
        rcases ih b with h | h
        · exact Or.inl h
        · exact Or.inr (List.mem_cons_of_mem _ h)
  intro l p hp
  cases l with
  | nil => simp [pickFirstMin] at hp
  | cons b rest =>
    simp only [pickFirstMin, Option.some_inj] at hp
    rcases key rest b with h | h
    · rw [← hp, h]; simp
    · rw [← hp]; exact List.mem_cons_of_mem _ h

theorem pickFirstMin_isSome {better : Process → Process → Bool} {l : List Process}
    (h : l ≠ []) : ∃ p, pickFirstMin better l = some p := by
  cases l with
  | nil => exact absurd rfl h
  | cons b rest => exact ⟨_, rfl⟩

/-- The fold underlying `pickFirstMin` returns an element no other element
strictly beats, provided `better` is asymmetric and its negation is
transitive (true of any strict total order). -/
theorem pickFirstMin_min {better : Process → Process → Bool}
    (hasymm : ∀ a b, better a b = true → better b a = false)
    (hneg : ∀ a b c, better a b = false → better b c = false → better a c = false) :
    ∀ {l : List Process} {p : Process}, pickFirstMin better l = some p →
      ∀ x ∈ l, better x p = false := by
  have hirr : ∀ a, better a a = false := by
    intro a
    by_contra h
    have hb : better a a = true := by simpa using h
    have hf := hasymm a a hb
    rw [hf] at hb
    exact Bool.false_ne_true hb
  have key : ∀ (l : List Process) (b : Process),
      ∀ x, (x = b ∨ x ∈ l) →
        better x (l.foldl (fun best q => if better q best then q else best) b) = false := by
    intro l
    induction l with
    | nil =>
      intro b x hx
      rcases hx with rfl | hx
      · exact hirr x
      · simp at hx
    | cons y rest ih =>
      intro b x hx
      simp only [List.foldl_cons]
      by_cases hb : better y b
      · simp only [if_pos hb]
        rcases hx with heq | hx
        · -- x = b : from better y b and ¬ better y r we get ¬ better b r
          rw [heq]
          have hyr : better y (rest.foldl (fun best q => if better q best then q else best) y)
              = false := ih y y (Or.inl rfl)
          exact hneg b y _ (hasymm y b hb) hyr
        · rcases List.mem_cons.mp hx with heq | hx
          · rw [heq]
            exact ih y y (Or.inl rfl)
          · exact ih y x (Or.inr hx)
      · simp only [if_neg hb]
        rcases hx with heq | hx
        · rw [heq]
          exact ih b b (Or.inl rfl)
        · rcases List.mem_cons.mp hx with heq | hx
          · -- x = y : ¬ better y b and ¬ better b r give ¬ better y r
            rw [heq]
            have hbr : better b (rest.foldl (fun best q => if better q best then q else best) b)
                = false := ih b b (Or.inl rfl)
            exact hneg y b _ (by simpa using hb) hbr
          · exact ih b x (Or.inr hx)
  intro l p hp x hx
  cases l with
  | nil => simp at hx
  | cons b rest =>
    simp only [pickFirstMin, Option.some_inj] at hp
    rw [← hp]
    rcases List.mem_cons.mp hx with rfl | hx
    · exact key rest x x (Or.inl rfl)
    · exact key rest b x (Or.inr hx)

theorem sjfBetter_asymm : ∀ a b, sjfBetter a b = true → sjfBetter b a = false := by
  intro a b
  simp only [sjfBetter, decide_eq_true_eq, decide_eq_false_iff_not]
  omega

theorem sjfBetter_neg_trans :
    ∀ a b c, sjfBetter a b = false → sjfBetter b c = false → sjfBetter a c = false := by
  intro a b c
  simp only [sjfBetter, decide_eq_false_iff_not]
  omega

theorem prioBetter_asymm : ∀ a b, prioBetter a b = true → prioBetter b a = false := by
  intro a b
  simp only [prioBetter, decide_eq_true_eq, decide_eq_false_iff_not]
  omega

theorem prioBetter_neg_trans :
    ∀ a b c, prioBetter a b = false → prioBetter b c = false → prioBetter a c = false := by
  intro a b c
  simp only [prioBetter, decide_eq_false_iff_not]
  omega

theorem minArrival_spec {l : List Process} (h : l ≠ []) :
    (∃ p ∈ l, p.arrivalTime = minArrival l) ∧ ∀ x ∈ l, minArrival l ≤ x.arrivalTime := by
  have key : ∀ (l : List Process) (a : Int),
      (l.foldl (fun a q => min a q.arrivalTime) a = a ∨
        ∃ p ∈ l, p.arrivalTime = l.foldl (fun a q => min a q.arrivalTime) a) ∧
      (l.foldl (fun a q => min a q.arrivalTime) a ≤ a ∧
        ∀ x ∈ l, l.foldl (fun a q => min a q.arrivalTime) a ≤ x.arrivalTime) := by
    intro l
    induction l with
    | nil => intro a; simp
    | cons q rest ih =>
      intro a
      simp only [List.foldl_cons]
      have hmem := (ih (min a q.arrivalTime)).1
      have hle := (ih (min a q.arrivalTime)).2.1
      have hall := (ih (min a q.arrivalTime)).2.2
      constructor
      · rcases hmem with heq | ⟨p, hp, hpe⟩
        · rw [heq]
          rcases min_cases a q.arrivalTime with ⟨hm, _⟩ | ⟨hm, _⟩
          · exact Or.inl hm
          · exact Or.inr ⟨q, by simp, by rw [hm]⟩
        · exact Or.inr ⟨p, List.mem_cons_of_mem _ hp, hpe⟩
      · refine ⟨le_trans hle (min_le_left _ _), ?_⟩
        intro x hx
        rcases List.mem_cons.mp hx with rfl | hx
        · exact le_trans hle (min_le_right _ _)
        · exact hall x hx
  cases l with
  | nil => exact absurd rfl h
  | cons q rest =>
    have hmem := (key rest q.arrivalTime).1
    have hle := (key rest q.arrivalTime).2.1
    have hall := (key rest q.arrivalTime).2.2
    constructor
    · rcases hmem with heq | ⟨p, hp, hpe⟩
      · exact ⟨q, by simp, by simp [minArrival, heq]⟩
      · exact ⟨p, List.mem_cons_of_mem _ hp, hpe⟩
    · intro x hx
      rcases List.mem_cons.mp hx with rfl | hx
      · exact hle
      · exact hall x hx

/-! ### FCFS lemmas -/

theorem arrivalIdLe_trans : ∀ a b c : Process,
    arrivalIdLe a b = true → arrivalIdLe b c = true → arrivalIdLe a c = true := by
  intro a b c
  simp only [arrivalIdLe, decide_eq_true_eq]
  omega

theorem arrivalIdLe_total : ∀ a b : Process,
    (arrivalIdLe a b || arrivalIdLe b a) = true := by
  intro a b
  simp only [arrivalIdLe, Bool.or_eq_true, decide_eq_true_eq]
  omega

theorem fcfsSorted_perm (processes : List Process) :
    (fcfsSorted processes).Perm processes :=
  List.perm_insertionSort _ processes

theorem fcfsSorted_sorted (processes : List Process) :
    List.Pairwise (fun a b => arrivalIdLe a b = true) (fcfsSorted processes) :=
  have ht : IsTrans Process (fun a b => arrivalIdLe a b = true) :=
    ⟨arrivalIdLe_trans⟩
  have hto : IsTotal Process (fun a b => arrivalIdLe a b = true) := ⟨by
    intro a b
    have h := arrivalIdLe_total a b
    rcases Bool.or_eq_true_iff.mp h with h | h
    · exact Or.inl h
    · exact Or.inr h⟩
  List.sorted_insertionSort _ processes

theorem fcfsRun_forall₂_gantt : ∀ (l : List Process) (cur : Int),
    List.Forall₂ (fun p iv => iv.pid = p.id ∧ p.arrivalTime ≤ iv.start ∧
      iv.stop = iv.start + p.burstTime) l (fcfsRun cur l).1 := by
  intro l
  induction l with
  | nil => intro cur; simp [fcfsRun]
  | cons p rest ih =>
    intro cur
    simp only [fcfsRun]
    refine List.Forall₂.cons ⟨rfl, ?_, rfl⟩ (ih _)
    by_cases h : cur < p.arrivalTime <;> simp [h] <;> omega

theorem fcfsRun_forall₂_results : ∀ (l : List Process) (cur : Int),
    List.Forall₂ (fun p r => r.id = p.id ∧ r.arrivalTime = p.arrivalTime ∧
      r.burstTime = p.burstTime ∧ r.priority = p.priority ∧
      r.turnaroundTime = r.waitingTime + r.burstTime ∧ 0 ≤ r.waitingTime)
      l (fcfsRun cur l).2 := by
  intro l
  induction l with
  | nil => intro cur; simp [fcfsRun]
  | cons p rest ih =>
    intro cur
    simp only [fcfsRun]
    refine List.Forall₂.cons ⟨rfl, rfl, rfl, rfl, by simp [mkResult]; ring, ?_⟩ (ih _)
    simp only [mkResult]
    by_cases h : cur < p.arrivalTime <;> simp [h] <;> omega

theorem fcfsRun_gantt_mem : ∀ (l : List Process), (∀ p ∈ l, 1 ≤ p.burstTime) →
    ∀ (cur : Int), ∀ iv ∈ (fcfsRun cur l).1,
    cur ≤ iv.start ∧
    ∃ p ∈ l, iv.pid = p.id ∧ p.arrivalTime ≤ iv.start ∧ iv.stop = iv.start + p.burstTime := by
  intro l
  induction l with
  | nil => intro _ cur iv h; simp [fcfsRun] at h
  | cons p rest ih =>
    intro hwf cur iv hiv
    simp only [fcfsRun, List.mem_cons] at hiv
    rcases hiv with rfl | hiv
    · constructor
      · by_cases h : cur < p.arrivalTime <;> simp [h] <;> omega
      · refine ⟨p, by simp, rfl, ?_, rfl⟩
        by_cases h : cur < p.arrivalTime <;> simp [h] <;> omega
    · obtain ⟨h1, q, hq, h3⟩ := ih (fun x hx => hwf x (List.mem_cons_of_mem _ hx)) _ iv hiv
      refine ⟨?_, q, List.mem_cons_of_mem _ hq, h3⟩
      have hp : 1 ≤ p.burstTime := hwf p (by simp)
      have : cur ≤ (if cur < p.arrivalTime then p.arrivalTime else cur) + p.burstTime := by
        by_cases h : cur < p.arrivalTime <;> simp [h] <;> omega
      omega

theorem fcfsRun_chain : ∀ (l : List Process), (∀ p ∈ l, 1 ≤ p.burstTime) →
    ∀ (cur : Int),
    List.Chain' (fun a b => a.stop ≤ b.start) (fcfsRun cur l).1 ∧
      ∀ iv ∈ (fcfsRun cur l).1, cur ≤ iv.start := by
  intro l
  induction l with
  | nil => intro _ cur; simp [fcfsRun]
  | cons p rest ih =>
    intro hwf cur
    simp only [fcfsRun]
    have hp : 1 ≤ p.burstTime := hwf p (by simp)
    have hstep : cur ≤ (if cur < p.arrivalTime then p.arrivalTime else cur) := by
      by_cases h : cur < p.arrivalTime <;> simp [h] <;> omega
    have hrest := ih (fun x hx => hwf x (List.mem_cons_of_mem _ hx))
      ((if cur < p.arrivalTime then p.arrivalTime else cur) + p.burstTime)
    constructor
    · rw [List.chain'_cons']
      refine ⟨?_, hrest.1⟩
      intro b hb
      have hbm : b ∈ (fcfsRun ((if cur < p.arrivalTime then p.arrivalTime else cur)
          + p.burstTime) rest).1 := by
        exact List.mem_of_mem_head? hb
      have := hrest.2 b hbm
      show (if cur < p.arrivalTime then p.arrivalTime else cur) + p.burstTime ≤ b.start
      omega
    · intro iv hiv
      rcases List.mem_cons.mp hiv with rfl | hiv
      · exact hstep
      · have := hrest.2 iv hiv
        omega

/-! ### SJF / Priority loop lemmas -/

theorem schedT_ge {pending : List Process} {cur : Int} (h : pending ≠ []) :
    cur ≤ schedT pending cur := by
  unfold schedT
  by_cases he : (pending.filter (fun p => decide (p.arrivalTime ≤ cur))).isEmpty
  · simp only [if_pos he]
    obtain ⟨⟨p, hp, hpe⟩, _⟩ := minArrival_spec h
    rw [List.isEmpty_iff] at he
    have hnp : ¬ (p.arrivalTime ≤ cur) := by
      intro hc
      have hmem : p ∈ pending.filter (fun p => decide (p.arrivalTime ≤ cur)) := by
        simp [List.mem_filter, hp, hc]
      simp [he] at hmem
    omega
  · rw [if_neg he]

theorem schedT_avail {pending : List Process} {cur : Int} (h : pending ≠ []) :
    ∃ p ∈ pending, p.arrivalTime ≤ schedT pending cur := by
  unfold schedT
  by_cases he : (pending.filter (fun p => decide (p.arrivalTime ≤ cur))).isEmpty
  · simp only [if_pos he]
    obtain ⟨⟨p, hp, hpe⟩, _⟩ := minArrival_spec h
    exact ⟨p, hp, le_of_eq hpe⟩
  · simp only [if_neg he]
    rw [List.isEmpty_iff] at he
    obtain ⟨x, hx⟩ := List.exists_mem_of_ne_nil _ he
    have := List.mem_filter.mp hx
    exact ⟨x, this.1, by simpa using this.2⟩

theorem schedLoop_nil (better : Process → Process → Bool) :
    ∀ (fuel : Nat) (cur : Int), schedLoop better fuel [] cur = ([], []) := by
  intro fuel cur
  cases fuel <;> simp [schedLoop]

theorem schedLoop_succ (better : Process → Process → Bool) (fuel : Nat)
    {pending : List Process} (cur : Int) (h : pending ≠ []) :
    ∃ p, pickFirstMin better
        (pending.filter (fun x => decide (x.arrivalTime ≤ schedT pending cur))) = some p ∧
      p ∈ pending ∧ p.arrivalTime ≤ schedT pending cur ∧
      schedLoop better (fuel + 1) pending cur =
        (⟨p.id, schedT pending cur, schedT pending cur + p.burstTime⟩ ::
            (schedLoop better fuel (pending.erase p) (schedT pending cur + p.burstTime)).1,
         (p.id, mkResult p (schedT pending cur) (schedT pending cur + p.burstTime)) ::
            (schedLoop better fuel (pending.erase p) (schedT pending cur + p.burstTime)).2) := by
  have hne : pending.isEmpty = false := by
    cases pending with
    | nil => exact absurd rfl h
    | cons a l => rfl
  obtain ⟨p0, hp0m, hp0le⟩ := @schedT_avail pending cur h
  have hp0f : p0 ∈ pending.filter (fun x => decide (x.arrivalTime ≤ schedT pending cur)) := by
    simp [List.mem_filter, hp0m, hp0le]
  have hfne : pending.filter (fun x => decide (x.arrivalTime ≤ schedT pending cur)) ≠ [] :=
    List.ne_nil_of_mem hp0f
  obtain ⟨p, hp⟩ := @pickFirstMin_isSome better _ hfne
  have hpf := List.mem_filter.mp (pickFirstMin_mem hp)
  refine ⟨p, hp, hpf.1, by simpa using hpf.2, ?_⟩
  simp only [schedLoop, hne, Bool.false_eq_true, if_false, hp]

theorem schedLoop_entries (better : Process → Process → Bool) :
    ∀ (fuel : Nat) (pending : List Process) (cur : Int),
    ∀ e ∈ (schedLoop better fuel pending cur).2,
      ∃ p ∈ pending, ∃ st, p.arrivalTime ≤ st ∧
        e = (p.id, mkResult p st (st + p.burstTime)) := by
  intro fuel
  induction fuel with
  | zero => intro pending cur e he; simp [schedLoop] at he
  | succ fuel ih =>
    intro pending cur e he
    by_cases h : pending = []
    · subst h; simp [schedLoop_nil] at he
    · obtain ⟨p, hpick, hpm, hple, heq⟩ := schedLoop_succ better fuel cur h
      rw [heq] at he
      rcases List.mem_cons.mp he with rfl | he
      · exact ⟨p, hpm, schedT pending cur, hple, rfl⟩
      · obtain ⟨p', hp', st, hst, he'⟩ := ih _ _ e he
        exact ⟨p', List.mem_of_mem_erase hp', st, hst, he'⟩

theorem schedLoop_keys_perm (better : Process → Process → Bool) :
    ∀ (fuel : Nat) (pending : List Process) (cur : Int), pending.length ≤ fuel →
    ((schedLoop better fuel pending cur).2.map Prod.fst).Perm (pending.map Process.id) := by
  intro fuel
  induction fuel with
  | zero =>
    intro pending cur hlen
    have h : pending = [] := List.eq_nil_of_length_eq_zero (Nat.le_zero.mp hlen)
    subst h
    simp [schedLoop]
  | succ fuel ih =>
    intro pending cur hlen
    by_cases h : pending = []
    · subst h; simp [schedLoop_nil]
    · obtain ⟨p, hpick, hpm, hple, heq⟩ := schedLoop_succ better fuel cur h
      rw [heq]
      simp only [List.map_cons]
      have hlen2 : (pending.erase p).length ≤ fuel := by
        have h1 := List.length_erase_of_mem hpm
        have h2 : 1 ≤ pending.length := by
          cases pending with
          | nil => exact absurd rfl h
          | cons a l => simp
        omega
      have hperm := ih (pending.erase p) (schedT pending cur + p.burstTime) hlen2
      have h2 : (pending.map Process.id).Perm (p.id :: (pending.erase p).map Process.id) := by
        have hpe := List.perm_cons_erase hpm
        simpa using hpe.map Process.id
      exact (hperm.cons p.id).trans h2.symm

theorem schedLoop_gantt (better : Process → Process → Bool) :
    ∀ (fuel : Nat) (pending : List Process) (cur : Int),
    (∀ p ∈ pending, 1 ≤ p.burstTime) →
    List.Chain' (fun a b => a.stop ≤ b.start) (schedLoop better fuel pending cur).1 ∧
    ∀ iv ∈ (schedLoop better fuel pending cur).1, cur ≤ iv.start ∧
      ∃ p ∈ pending, iv.pid = p.id ∧ p.arrivalTime ≤ iv.start ∧
        iv.stop = iv.start + p.burstTime := by
  intro fuel
  induction fuel with
  | zero => intro pending cur _; simp [schedLoop]
  | succ fuel ih =>
    intro pending cur hwf
    by_cases h : pending = []
    · subst h; simp [schedLoop_nil]
    · obtain ⟨p, hpick, hpm, hple, heq⟩ := schedLoop_succ better fuel cur h
      rw [heq]
      have hpb : 1 ≤ p.burstTime := hwf p hpm
      have ht : cur ≤ schedT pending cur := schedT_ge h
      have hrest := ih (pending.erase p) (schedT pending cur + p.burstTime)
        (fun x hx => hwf x (List.mem_of_mem_erase hx))
      constructor
      · rw [List.chain'_cons']
        refine ⟨?_, hrest.1⟩
        intro b hb
        have hbm := List.mem_of_mem_head? hb
        have := (hrest.2 b hbm).1
        show schedT pending cur + p.burstTime ≤ b.start
        omega
      · intro iv hiv
        rcases List.mem_cons.mp hiv with rfl | hiv
        · exact ⟨ht, p, hpm, rfl, hple, rfl⟩
        · obtain ⟨h1, q, hq, h2⟩ := hrest.2 iv hiv
          exact ⟨by omega, q, List.mem_of_mem_erase hq, h2⟩

theorem schedLoop_fuel_irrel (better : Process → Process → Bool) :
    ∀ (f₁ f₂ : Nat) (pending : List Process) (cur : Int),
    pending.length ≤ f₁ → pending.length ≤ f₂ →
    schedLoop better f₁ pending cur = schedLoop better f₂ pending cur := by
  intro f₁
  induction f₁ with
  | zero =>
    intro f₂ pending cur h1 _
    have h : pending = [] := List.eq_nil_of_length_eq_zero (Nat.le_zero.mp h1)
    subst h
    simp [schedLoop_nil, schedLoop]
  | succ f₁ ih =>
    intro f₂ pending cur h1 h2
    by_cases h : pending = []
    · subst h; simp [schedLoop_nil]
    · have hlen : 1 ≤ pending.length := by
        cases pending with
        | nil => exact absurd rfl h
        | cons a l => simp
      obtain ⟨f₂', rfl⟩ : ∃ k, f₂ = k + 1 := by
        cases f₂ with
        | zero => omega
        | succ k => exact ⟨k, rfl⟩
      obtain ⟨p, hpick, hpm, hple, heq⟩ := schedLoop_succ better f₁ cur h
      obtain ⟨p', hpick', hpm', hple', heq'⟩ := schedLoop_succ better f₂' cur h
      rw [hpick] at hpick'
      obtain rfl : p = p' := by simpa using hpick'
      rw [heq, heq']
      have herase : (pending.erase p).length ≤ f₁ := by
        have := List.length_erase_of_mem hpm
        omega
      have herase2 : (pending.erase p).length ≤ f₂' := by
        have := List.length_erase_of_mem hpm
        omega
      rw [ih f₂' (pending.erase p) (schedT pending cur + p.burstTime) herase herase2]

theorem schedLoop_lookup (better : Process → Process → Bool)
    {pending : List Process} (cur : Int)
    (hnd : (pending.map Process.id).Nodup) :
    ∀ p ∈ pending, ∃ st, p.arrivalTime ≤ st ∧
      lookupLast p.id (schedLoop better pending.length pending cur).2 =
        some (mkResult p st (st + p.burstTime)) := by
  intro p hp
  have hkeys := schedLoop_keys_perm better pending.length pending cur le_rfl
  have hkin : p.id ∈ (schedLoop better pending.length pending cur).2.map Prod.fst :=
    hkeys.mem_iff.mpr (List.mem_map_of_mem _ hp)
  obtain ⟨r, hr⟩ := lookupLast_isSome hkin
  have hmem : (p.id, r) ∈ (schedLoop better pending.length pending cur).2 :=
    lookupLast_eq_some_mem hr
  obtain ⟨p', hp', st, hst, he⟩ := schedLoop_entries better _ _ _ _ hmem
  have hid : p.id = p'.id := congrArg Prod.fst he
  have hres : r = mkResult p' st (st + p'.burstTime) := congrArg Prod.snd he
  have hpp : p = p' := List.inj_on_of_nodup_map hnd hp hp' hid
  subst hpp
  exact ⟨st, hst, by rw [hr, hres]⟩

theorem sjf_gantt_eq (processes : List Process) :
    (sjf processes).gantt = (schedLoop sjfBetter processes.length processes 0).1 := rfl

theorem sjf_results_eq (processes : List Process) :
    (sjf processes).results = processes.map (fun p =>
      lookupLast p.id (schedLoop sjfBetter processes.length processes 0).2) := rfl

theorem priority_gantt_eq (processes : List Process) :
    (priorityScheduling processes).gantt =
      (schedLoop prioBetter processes.length processes 0).1 := rfl

theorem priority_results_eq (processes : List Process) :
    (priorityScheduling processes).results = processes.map (fun p =>
      lookupLast p.id (schedLoop prioBetter processes.length processes 0).2) := rfl

theorem schedResults_echo (better : Process → Process → Bool) {processes : List Process}
    (hnd : (processes.map Process.id).Nodup) :
    List.Forall₂ (fun p ro => ∃ r, ro = some r ∧ r.id = p.id ∧
        r.arrivalTime = p.arrivalTime ∧ r.burstTime = p.burstTime ∧
        r.priority = p.priority)
      processes (processes.map (fun p =>
        lookupLast p.id (schedLoop better processes.length processes 0).2)) := by
  rw [List.forall₂_map_right_iff, List.forall₂_same]
  intro p hp
  obtain ⟨st, hst, hl⟩ := schedLoop_lookup better 0 hnd p hp
  exact ⟨mkResult p st (st + p.burstTime), hl, rfl, rfl, rfl, rfl⟩

theorem schedResults_metrics (better : Process → Process → Bool)
    (processes : List Process) (fuel : Nat) (cur : Int)
    (hwf : ∀ p ∈ processes, 1 ≤ p.burstTime) :
    ∀ ro ∈ processes.map (fun p =>
        lookupLast p.id (schedLoop better fuel processes cur).2),
      ∀ r, ro = some r → r.turnaroundTime = r.waitingTime + r.burstTime ∧
        1 ≤ r.burstTime ∧ 0 ≤ r.waitingTime := by
  intro ro hro r hr
  obtain ⟨p, hp, rfl⟩ := List.mem_map.mp hro
  have hmem := lookupLast_eq_some_mem hr
  obtain ⟨p', hp', st, hst, he⟩ := schedLoop_entries better _ _ _ _ hmem
  have hres : r = mkResult p' st (st + p'.burstTime) := congrArg Prod.snd he
  have hb : 1 ≤ p'.burstTime := hwf p' hp'
  subst hres
  simp only [mkResult]
  refine ⟨by ring, hb, by omega⟩

/-! ### `Object.values` and the starvation flag -/

theorem lookup_filter_ne {k c : Int} (hk : k ≠ c) :
    ∀ (l : List (Int × ProcResult)),
      (l.filter (fun x => decide (x.1 ≠ c))).lookup k = l.lookup k := by
  intro l
  induction l with
  | nil => simp
  | cons x rest ih =>
    by_cases hx : x.1 = c
    · have hd : (decide (x.1 ≠ c)) = false := by simp [hx]
      have hbeq : (k == x.1) = false := by
        simp only [beq_eq_false_iff_ne, ne_eq, hx]
        exact hk
      simp only [List.filter_cons, hd, Bool.false_eq_true, if_false]
      rw [ih]
      simp [List.lookup, hbeq]
    · have hd : (decide (x.1 ≠ c)) = true := by simp [hx]
      simp only [List.filter_cons, hd, if_true]
      by_cases hkx : k = x.1
      · subst hkx
        simp [List.lookup]
      · have hbeq : (k == x.1) = false := by simpa using hkx
        simp only [List.lookup, hbeq]
        exact ih

theorem objValuesAux_mem_iff : ∀ (fuel : Nat) (l : List (Int × ProcResult)),
    l.length ≤ fuel → ∀ (r : ProcResult),
    (r ∈ objValuesAux fuel l ↔ ∃ k, l.lookup k = some r) := by
  intro fuel
  induction fuel with
  | zero =>
    intro l hl r
    have : l = [] := List.eq_nil_of_length_eq_zero (Nat.le_zero.mp hl)
    subst this
    simp [objValuesAux, List.lookup]
  | succ fuel ih =>
    intro l hl r
    cases l with
    | nil => simp [objValuesAux, List.lookup]
    | cons e rest =>
    have ihr := ih (rest.filter (fun x => decide (x.1 ≠ e.1)))
      (by
        have h1 := List.length_filter_le (fun x => decide (x.1 ≠ e.1)) rest
        have h2 : rest.length + 1 ≤ fuel + 1 := hl
        omega) r
    simp only [objValuesAux]
    constructor
    · intro h
      rcases List.mem_cons.mp h with heq | h
      · exact ⟨e.1, by simp [List.lookup, heq]⟩
      · obtain ⟨k, hk⟩ := ihr.mp h
        have hkc : k ≠ e.1 := by
          intro hc
          subst hc
          have hm := lookup_eq_some_mem hk
          have := (List.mem_filter.mp hm).2
          simp at this
        rw [lookup_filter_ne hkc] at hk
        refine ⟨k, ?_⟩
        have hbeq : (k == e.1) = false := by simpa using hkc
        simp [List.lookup, hbeq, hk]
    · rintro ⟨k, hk⟩
      by_cases hkc : k = e.1
      · subst hkc
        simp only [List.lookup, beq_self_eq_true] at hk
        obtain rfl : e.2 = r := by simpa using hk
        simp
      · have hbeq : (k == e.1) = false := by simpa using hkc
        simp only [List.lookup, hbeq] at hk
        rw [← lookup_filter_ne hkc] at hk
        exact List.mem_cons_of_mem _ (ihr.mpr ⟨k, hk⟩)

theorem objValues_mem_iff (l : List (Int × ProcResult)) (r : ProcResult) :
    r ∈ objValues l ↔ ∃ k, l.lookup k = some r :=
  objValuesAux_mem_iff l.length l le_rfl r

theorem starvationRisk_iff (processes : List Process) :
    (priorityScheduling processes).starvationRisk = true ↔
      ∃ ro ∈ (priorityScheduling processes).results, ∃ r, ro = some r ∧
        3 * r.burstTime < r.waitingTime := by
  have hflag : (priorityScheduling processes).starvationRisk =
      (objValues (schedLoop prioBetter processes.length processes 0).2.reverse).any
        (fun r => decide (3 * r.burstTime < r.waitingTime)) := rfl
  rw [hflag, List.any_eq_true]
  constructor
  · rintro ⟨r, hr, hpred⟩
    obtain ⟨k, hk⟩ := (objValues_mem_iff _ r).mp hr
    have hk' : lookupLast k (schedLoop prioBetter processes.length processes 0).2 = some r := hk
    have hmem := lookupLast_eq_some_mem hk'
    obtain ⟨p, hp, st, hst, he⟩ := schedLoop_entries prioBetter _ _ _ _ hmem
    have hkid : k = p.id := congrArg Prod.fst he
    refine ⟨lookupLast p.id (schedLoop prioBetter processes.length processes 0).2, ?_, r, ?_, ?_⟩
    · rw [priority_results_eq]
      exact List.mem_map_of_mem _ hp
    · rw [← hkid]; exact hk'
    · simpa using hpred
  · rintro ⟨ro, hro, r, hr, hpred⟩
    rw [priority_results_eq] at hro
    obtain ⟨p, hp, rfl⟩ := List.mem_map.mp hro
    refine ⟨r, (objValues_mem_iff _ r).mpr ⟨p.id, hr⟩, by simpa using hpred⟩

/-! ### Round-Robin: basic facts -/

theorem rrSorted_perm (ps : List Process) :
    (rrSorted ps).Perm (List.range ps.length) :=
  List.perm_insertionSort _ _

theorem rrSorted_mem {ps : List Process} {i : Nat} :
    i ∈ rrSorted ps ↔ i < ps.length := by
  rw [(rrSorted_perm ps).mem_iff, List.mem_range]

theorem rrSorted_nodup (ps : List Process) : (rrSorted ps).Nodup :=
  (List.nodup_range ps.length).perm (rrSorted_perm ps).symm

theorem range_map_pidAt (ps : List Process) :
    (List.range ps.length).map (pidAt ps) = ps.map Process.id := by
  apply List.ext_getElem
  · simp
  · intro i h1 h2
    simp only [List.getElem_map, List.getElem_range, pidAt]
    rw [List.getD_eq_getElem?_getD, List.getElem?_eq_getElem (by simpa using h2)]
    simp

theorem pidAt_inj {ps : List Process} (hnd : (ps.map Process.id).Nodup)
    {i j : Nat} (hi : i < ps.length) (hj : j < ps.length)
    (hp : pidAt ps i = pidAt ps j) : i = j := by
  have h1 : ((List.range ps.length).map (pidAt ps)).Nodup := by
    rw [range_map_pidAt]; exact hnd
  exact List.inj_on_of_nodup_map h1 (List.mem_range.mpr hi) (List.mem_range.mpr hj) hp

/-- Filtering with a strictly stronger predicate that rules out a present
element gives a strictly shorter list. -/
theorem length_filter_lt {α : Type} {p p' : α → Bool} {l : List α}
    (hmono : ∀ a, p' a = true → p a = true) {a : α} (ha : a ∈ l)
    (hpa : p a = true) (hpa' : p' a = false) :
    (l.filter p').length < (l.filter p).length := by
  induction l with
  | nil => simp at ha
  | cons b rest ih =>
    rcases List.mem_cons.mp ha with heq | ha
    · subst heq
      rw [List.filter_cons, List.filter_cons, hpa, hpa']
      have hsub := (List.monotone_filter_right rest hmono).length_le
      simp only [if_true, Bool.false_eq_true, if_false, List.length_cons]
      omega
    · have hrec := ih ha
      rw [List.filter_cons, List.filter_cons]
      by_cases hb' : p' b = true
      · rw [hb', hmono b hb']
        simp only [if_true, List.length_cons]
        omega
      · rw [Bool.not_eq_true] at hb'
        rw [hb']
        by_cases hb : p b = true
        · rw [hb]
          simp only [if_true, Bool.false_eq_true, if_false, List.length_cons]
          omega
        · rw [Bool.not_eq_true] at hb
          rw [hb]
          simp only [Bool.false_eq_true, if_false]
          omega

theorem rrNotEnq_append_one {ps : List Process} {e : List Int} {j : Nat}
    (hj : j < ps.length) (hje : pidAt ps j ∉ e) :
    rrNotEnq ps (e ++ [pidAt ps j]) < rrNotEnq ps e := by
  unfold rrNotEnq
  apply length_filter_lt (a := j)
  · intro a ha
    have h1 : pidAt ps a ∉ e ++ [pidAt ps j] := by simpa using ha
    have h2 : pidAt ps a ∉ e := fun hc => h1 (List.mem_append.mpr (Or.inl hc))
    simpa using h2
  · exact List.mem_range.mpr hj
  · simpa using hje
  · simp

theorem rrNotEnq_append_le (ps : List Process) (e G : List Int) :
    rrNotEnq ps (e ++ G) ≤ rrNotEnq ps e := by
  unfold rrNotEnq
  apply List.Sublist.length_le
  apply List.monotone_filter_right
  intro a ha
  have h1 : pidAt ps a ∉ e ++ G := by simpa using ha
  have h2 : pidAt ps a ∉ e := fun hc => h1 (List.mem_append.mpr (Or.inl hc))
  simpa using h2

theorem rrNotEnq_append (ps : List Process) :
    ∀ (F : List Nat) (e : List Int),
    (∀ j ∈ F, j < ps.length ∧ pidAt ps j ∉ e) → (F.map (pidAt ps)).Nodup →
    rrNotEnq ps (e ++ F.map (pidAt ps)) + F.length ≤ rrNotEnq ps e := by
  intro F
  induction F with
  | nil => intro e _ _; simp
  | cons j F' ih =>
    intro e hF hnd
    rw [List.map_cons] at hnd ⊢
    have hj := hF j (by simp)
    have hstep := rrNotEnq_append_one hj.1 hj.2
    have hnd1 := List.nodup_cons.mp hnd
    have hrest : ∀ j' ∈ F', j' < ps.length ∧ pidAt ps j' ∉ e ++ [pidAt ps j] := by
      intro j' hj'
      refine ⟨(hF j' (List.mem_cons_of_mem _ hj')).1, ?_⟩
      intro hc
      rcases List.mem_append.mp hc with hc | hc
      · exact (hF j' (List.mem_cons_of_mem _ hj')).2 hc
      · have heq : pidAt ps j' = pidAt ps j := by simpa using hc
        exact hnd1.1 (heq ▸ List.mem_map_of_mem _ hj')
    have hih := ih (e ++ [pidAt ps j]) hrest hnd1.2
    rw [List.append_cons e (pidAt ps j) (F'.map (pidAt ps))]
    simp only [List.length_cons]
    omega

theorem ceilDiv_zero {b : Nat} (hb : 1 ≤ b) : ceilDiv 0 b = 0 := by
  unfold ceilDiv
  exact Nat.div_eq_of_lt (by omega)

theorem ceilDiv_pos {a b : Nat} (ha : 1 ≤ a) (hb : 1 ≤ b) : 1 ≤ ceilDiv a b := by
  unfold ceilDiv
  rw [Nat.le_div_iff_mul_le hb]
  omega

theorem ceilDiv_sub_min {r q : Nat} (hr : 1 ≤ r) (hq : 1 ≤ q) :
    ceilDiv (r - min q r) q = ceilDiv r q - 1 := by
  unfold ceilDiv
  by_cases h : r ≤ q
  · have h1 : min q r = r := min_eq_right h
    rw [h1, Nat.sub_self]
    have e1 : (0 + q - 1) / q = 0 := Nat.div_eq_of_lt (by omega)
    have e2 : (r + q - 1) / q = 1 := Nat.div_eq_of_lt_le (by omega) (by omega)
    rw [e1, e2]
  · have h1 : min q r = q := min_eq_left (by omega)
    rw [h1]
    have e1 : r - q + q - 1 = r - 1 := by omega
    have e2 : (r + q - 1) / q = (r - 1) / q + 1 := by
      have e3 : r + q - 1 = (r - 1) + q := by omega
      rw [e3, Nat.add_div_right _ (by omega)]
    rw [e1, e2]
    exact (Nat.add_sub_cancel _ _).symm

/-- `ceilDiv` is `1` exactly when the dividend fits in one quantum. -/
theorem ceilDiv_eq_one_iff {a b : Nat} (ha : 1 ≤ a) (hb : 1 ≤ b) :
    (ceilDiv a b = 1 ↔ a ≤ b) := by
  unfold ceilDiv
  constructor
  · intro h
    by_contra hc
    have h2 : 2 ≤ (a + b - 1) / b := by
      rw [Nat.le_div_iff_mul_le hb]
      omega
    omega
  · intro h
    exact Nat.div_eq_of_lt_le (by omega) (by omega)

theorem sum_range_map_update (g g' : Nat → Nat) (i : Nat) :
    ∀ (n : Nat), i < n → (∀ j, j ≠ i → g' j = g j) →
    ((List.range n).map g').sum + g i = ((List.range n).map g).sum + g' i := by
  intro n
  induction n with
  | zero => intro hi; simp at hi
  | succ n ihn =>
    intro hi hsame
    rw [List.range_succ, List.map_append, List.map_append, List.sum_append, List.sum_append]
    simp only [List.map_cons, List.map_nil, List.sum_cons, List.sum_nil]
    by_cases h : i = n
    · have hmap : (List.range n).map g' = (List.range n).map g :=
        List.map_congr_left (fun j hj => hsame j (by
          have := List.mem_range.mp hj; omega))
      rw [hmap, h]
      omega
    · have hi' : i < n := by omega
      have hr := ihn hi' hsame
      rw [hsame n (fun hc => h hc.symm)]
      omega

theorem rrCeilSum_update (ps : List Process) (q : Int) (rem : Nat → Int) (i : Nat)
    (hi : i < ps.length) (v : Int) :
    rrCeilSum ps q (fun j => if j = i then v else rem j) + ceilDiv (rem i).toNat q.toNat =
      rrCeilSum ps q rem + ceilDiv v.toNat q.toNat := by
  unfold rrCeilSum
  have h := sum_range_map_update (fun j => ceilDiv (rem j).toNat q.toNat)
    (fun j => ceilDiv (if j = i then v else rem j).toNat q.toNat) i ps.length hi
    (fun j hj => by simp [hj])
  simpa using h

/-- What the repeated enqueue pattern does: it appends some list `F` of
fresh indices (each matching the condition, not yet enqueued, with pairwise
distinct ids) to the queue and their ids to the enqueued set, and afterwards
every index of `sorted` matching the condition has its id enqueued. -/
theorem enqueueIf_spec (ps : List Process) (cond : Nat → Bool) :
    ∀ (sorted : List Nat) (q : List Nat) (e : List Int),
    ∃ F : List Nat,
      enqueueIf ps cond sorted q e = (q ++ F, e ++ F.map (pidAt ps)) ∧
      (∀ j ∈ F, j ∈ sorted ∧ cond j = true ∧ pidAt ps j ∉ e) ∧
      (F.map (pidAt ps)).Nodup ∧
      (∀ j ∈ sorted, cond j = true → pidAt ps j ∈ e ++ F.map (pidAt ps)) := by
  intro sorted
  induction sorted with
  | nil =>
    intro q e
    exact ⟨[], by simp [enqueueIf], by simp, by simp, by simp⟩
  | cons i rest ih =>
    intro q e
    by_cases hc : (cond i && !(e.contains (pidAt ps i))) = true
    · have hstep : enqueueIf ps cond (i :: rest) q e =
          enqueueIf ps cond rest (q ++ [i]) (e ++ [pidAt ps i]) := by
        simp only [enqueueIf, List.foldl_cons, hc, if_true]
      have hca : cond i = true ∧ pidAt ps i ∉ e := by simpa using hc
      have hcndi := hca.1
      have hnie := hca.2
      obtain ⟨F', heq, hF, hnd, hall⟩ := ih (q ++ [i]) (e ++ [pidAt ps i])
      refine ⟨i :: F', ?_, ?_, ?_, ?_⟩
      · rw [hstep, heq]
        simp [List.append_assoc]
      · intro j hj
        rcases List.mem_cons.mp hj with heqj | hj
        · subst heqj
          exact ⟨by simp, hcndi, hnie⟩
        · have := hF j hj
          exact ⟨List.mem_cons_of_mem _ this.1, this.2.1,
            fun hc2 => this.2.2 (List.mem_append.mpr (Or.inl hc2))⟩
      · rw [List.map_cons, List.nodup_cons]
        refine ⟨?_, hnd⟩
        intro hc2
        obtain ⟨j, hj, hjeq⟩ := List.mem_map.mp hc2
        exact (hF j hj).2.2 (List.mem_append.mpr (Or.inr (by simp [hjeq])))
      · intro j hj hcndj
        rcases List.mem_cons.mp hj with heqj | hj
        · subst heqj
          simp
        · have := hall j hj hcndj
          rw [List.map_cons, List.append_cons e (pidAt ps i) (F'.map (pidAt ps))]
          exact this
    · have hstep : enqueueIf ps cond (i :: rest) q e = enqueueIf ps cond rest q e := by
        simp only [enqueueIf, List.foldl_cons]
        rw [if_neg (by simpa using hc)]
      obtain ⟨F', heq, hF, hnd, hall⟩ := ih q e
      refine ⟨F', by rw [hstep, heq], ?_, hnd, ?_⟩
      · intro j hj
        have := hF j hj
        exact ⟨List.mem_cons_of_mem _ this.1, this.2⟩
      · intro j hj hcndj
        rcases List.mem_cons.mp hj with heqj | hj
        · have hci : cond i = true := by rw [← heqj]; exact hcndj
          have hmem : pidAt ps i ∈ e := by
            by_contra hcon
            exact hc (by simp [hci, hcon])
          rw [heqj]
          exact List.mem_append.mpr (Or.inl hmem)
        · exact hall j hj hcndj

theorem rrPending_iff {ps : List Process} {s : RRState} :
    rrPending ps s = true ↔
      ∃ i, i < ps.length ∧ 0 < s.rem i ∧ pidAt ps i ∉ s.enqueued := by
  unfold rrPending
  rw [List.any_eq_true]
  constructor
  · rintro ⟨i, hi, hp⟩
    have h1 : 0 < s.rem i ∧ pidAt ps i ∉ s.enqueued := by simpa using hp
    exact ⟨i, List.mem_range.mp hi, h1.1, h1.2⟩
  · rintro ⟨i, hi, hr, he⟩
    exact ⟨i, List.mem_range.mpr hi, by simp [hr, he]⟩

theorem rrPending_eq_false_iff {ps : List Process} {s : RRState} :
    rrPending ps s = false ↔
      ∀ i, i < ps.length → 0 < s.rem i → pidAt ps i ∈ s.enqueued := by
  rw [← Bool.not_eq_true, rrPending_iff]
  push_neg
  rfl

theorem rrNextArrival_mem {ps : List Process} {s : RRState} {j : Nat}
    (h : rrNextArrival ps s = some j) :
    j ∈ rrSorted ps ∧ pidAt ps j ∉ s.enqueued := by
  unfold rrNextArrival at h
  have hj : j ∈ List.insertionSort (fun i j => decide (arrAt ps i ≤ arrAt ps j) = true)
      ((rrSorted ps).filter (fun i => !(s.enqueued.contains (pidAt ps i)))) :=
    List.mem_of_mem_head? (by rw [h]; rfl)
  have hj2 := (List.perm_insertionSort _ _).mem_iff.mp hj
  have hj3 := List.mem_filter.mp hj2
  exact ⟨hj3.1, by simpa using hj3.2⟩

theorem rrNextArrival_isSome {ps : List Process} {s : RRState}
    (h : rrPending ps s = true) : ∃ j, rrNextArrival ps s = some j := by
  obtain ⟨i, hi, hr, he⟩ := rrPending_iff.mp h
  have hmem : i ∈ (rrSorted ps).filter
      (fun i => !(s.enqueued.contains (pidAt ps i))) := by
    rw [List.mem_filter]
    exact ⟨rrSorted_mem.mpr hi, by simpa using he⟩
  have hne : List.insertionSort (fun i j => decide (arrAt ps i ≤ arrAt ps j) = true)
      ((rrSorted ps).filter (fun i => !(s.enqueued.contains (pidAt ps i)))) ≠ [] := by
    intro hnil
    have hperm := List.perm_insertionSort
      (fun i j => decide (arrAt ps i ≤ arrAt ps j) = true)
      ((rrSorted ps).filter (fun i => !(s.enqueued.contains (pidAt ps i))))
    rw [hnil] at hperm
    exact List.ne_nil_of_mem hmem hperm.symm.eq_nil
  unfold rrNextArrival
  cases hh : List.insertionSort (fun i j => decide (arrAt ps i ≤ arrAt ps j) = true)
      ((rrSorted ps).filter (fun i => !(s.enqueued.contains (pidAt ps i)))) with
  | nil => exact absurd hh hne
  | cons a l => exact ⟨a, rfl⟩

/-- Characterisation of a run slice: the head is dequeued, one interval of
length `min quantum remaining` is emitted, the arrivals strictly inside the
slice are enqueued (as some fresh list `F` in `sorted` order) before the
head is re-enqueued (iff it still has remaining work). -/
theorem rrStep_run {ps : List Process} {q : Int} {s : RRState} {i : Nat}
    {rest : List Nat} (hqueue : s.queue = i :: rest) :
    ∃ F : List Nat,
      (∀ j ∈ F, j ∈ rrSorted ps ∧
        (s.currentTime < arrAt ps j ∧ arrAt ps j ≤ s.currentTime + min q (s.rem i)) ∧
        pidAt ps j ∉ s.enqueued) ∧
      (F.map (pidAt ps)).Nodup ∧
      (∀ j ∈ rrSorted ps, s.currentTime < arrAt ps j →
        arrAt ps j ≤ s.currentTime + min q (s.rem i) →
        pidAt ps j ∈ s.enqueued ++ F.map (pidAt ps)) ∧
      rrStep ps q s =
        { rem := fun j => if j = i then s.rem i - min q (s.rem i) else s.rem j,
          gantt := s.gantt ++
            [⟨pidAt ps i, s.currentTime, s.currentTime + min q (s.rem i)⟩],
          finishTime := if 0 < s.rem i - min q (s.rem i) then s.finishTime
            else (pidAt ps i, s.currentTime + min q (s.rem i)) :: s.finishTime,
          currentTime := s.currentTime + min q (s.rem i),
          queue := if 0 < s.rem i - min q (s.rem i) then (rest ++ F) ++ [i]
            else rest ++ F,
          enqueued := s.enqueued ++ F.map (pidAt ps) } := by
  obtain ⟨F, heq, hF, hnd, hall⟩ := enqueueIf_spec ps
    (fun j => decide (s.currentTime < arrAt ps j ∧
      arrAt ps j ≤ s.currentTime + min q (s.rem i))) (rrSorted ps) rest s.enqueued
  refine ⟨F, ?_, hnd, ?_, ?_⟩
  · intro j hj
    have h := hF j hj
    exact ⟨h.1, by simpa using h.2.1, h.2.2⟩
  · intro j hj h1 h2
    exact hall j hj (by simp [h1, h2])
  · show rrStep ps q s = _
    unfold rrStep
    rw [hqueue]
    simp only [heq]
    by_cases h2 : 0 < s.rem i - min q (s.rem i)
    · rw [if_pos h2, if_pos h2, if_pos h2]
    · rw [if_neg h2, if_neg h2, if_neg h2]

/-- Characterisation of an idle jump: the clock moves to the arrival time of
the earliest not-yet-enqueued process and every process arrived by then is
enqueued. -/
theorem rrStep_idle {ps : List Process} {q : Int} {s : RRState}
    (hqueue : s.queue = []) {j : Nat} (hnext : rrNextArrival ps s = some j) :
    ∃ F : List Nat,
      (∀ k ∈ F, k ∈ rrSorted ps ∧ arrAt ps k ≤ arrAt ps j ∧
        pidAt ps k ∉ s.enqueued) ∧
      (F.map (pidAt ps)).Nodup ∧ F ≠ [] ∧
      (∀ k ∈ rrSorted ps, arrAt ps k ≤ arrAt ps j →
        pidAt ps k ∈ s.enqueued ++ F.map (pidAt ps)) ∧
      rrStep ps q s =
        { s with
          currentTime := arrAt ps j
          queue := F
          enqueued := s.enqueued ++ F.map (pidAt ps) } := by
  obtain ⟨F, heq, hF, hnd, hall⟩ := enqueueIf_spec ps
    (fun k => decide (arrAt ps k ≤ arrAt ps j)) (rrSorted ps) [] s.enqueued
  obtain ⟨hjs, hje⟩ := rrNextArrival_mem hnext
  have hfull : ∀ k ∈ rrSorted ps, arrAt ps k ≤ arrAt ps j →
      pidAt ps k ∈ s.enqueued ++ F.map (pidAt ps) := by
    intro k hk hle
    exact hall k hk (by simpa using hle)
  have hFne : F ≠ [] := by
    intro hnil
    have := hfull j hjs le_rfl
    rw [hnil] at this
    simp at this
    exact hje this
  refine ⟨F, ?_, hnd, hFne, hfull, ?_⟩
  · intro k hk
    have h := hF k hk
    exact ⟨h.1, by simpa using h.2.1, h.2.2⟩
  · show rrStep ps q s = _
    unfold rrStep
    rw [hqueue, hnext]
    simp only [heq, List.nil_append]

/-- Every loop iteration that passes the guard strictly decreases the
measure and keeps queue indices in range. -/
theorem rrStep_measure_lt {ps : List Process} {q : Int} (hq : 1 ≤ q) {s : RRState}
    (hqr : ∀ i ∈ s.queue, i < ps.length)
    (hg1 : ¬(s.queue.isEmpty = true ∧ rrPending ps s = false)) :
    rrMeasure ps q (rrStep ps q s) < rrMeasure ps q s ∧
      ∀ i ∈ (rrStep ps q s).queue, i < ps.length := by
  cases hqueue : s.queue with
  | nil =>
    have hpend : rrPending ps s = true := by
      rcases Bool.eq_false_or_eq_true (rrPending ps s) with h | h
      · exact h
      · exact absurd ⟨by rw [hqueue]; rfl, h⟩ hg1
    obtain ⟨j, hj⟩ := rrNextArrival_isSome hpend
    obtain ⟨F, hF, hnd, hFne, hall, hstate⟩ := rrStep_idle hqueue hj
    have hF' : ∀ k ∈ F, k < ps.length ∧ pidAt ps k ∉ s.enqueued := fun k hk =>
      ⟨rrSorted_mem.mp (hF k hk).1, (hF k hk).2.2⟩
    have hcount := rrNotEnq_append ps F s.enqueued hF' hnd
    have hFlen : 1 ≤ F.length := List.length_pos.mpr hFne
    rw [hstate]
    constructor
    · unfold rrMeasure
      dsimp only
      rw [hqueue]
      simp only [List.length_nil]
      omega
    · intro i hi
      exact (hF' i (by simpa using hi)).1
  | cons i rest =>
    obtain ⟨F, hF, hnd, hall, hstate⟩ := rrStep_run hqueue
    have hi : i < ps.length := hqr i (by rw [hqueue]; simp)
    have hF' : ∀ k ∈ F, k < ps.length ∧ pidAt ps k ∉ s.enqueued := fun k hk =>
      ⟨rrSorted_mem.mp (hF k hk).1, (hF k hk).2.2⟩
    have hcount := rrNotEnq_append ps F s.enqueued hF' hnd
    have hrange : ∀ k ∈ (rrStep ps q s).queue, k < ps.length := by
      rw [hstate]
      intro k hk
      dsimp only at hk
      by_cases h2 : 0 < s.rem i - min q (s.rem i)
      · rw [if_pos h2] at hk
        rcases List.mem_append.mp hk with hk | hk
        · rcases List.mem_append.mp hk with hk | hk
          · exact hqr k (by rw [hqueue]; exact List.mem_cons_of_mem _ hk)
          · exact (hF' k hk).1
        · obtain rfl : k = i := by simpa using hk
          exact hi
      · rw [if_neg h2] at hk
        rcases List.mem_append.mp hk with hk | hk
        · exact hqr k (by rw [hqueue]; exact List.mem_cons_of_mem _ hk)
        · exact (hF' k hk).1
    refine ⟨?_, hrange⟩
    have hupd := rrCeilSum_update ps q s.rem i hi (s.rem i - min q (s.rem i))
    by_cases hr : 1 ≤ s.rem i
    · have htv : (s.rem i - min q (s.rem i)).toNat =
          (s.rem i).toNat - min q.toNat (s.rem i).toNat := by omega
      have hceil1 : ceilDiv (s.rem i - min q (s.rem i)).toNat q.toNat =
          ceilDiv (s.rem i).toNat q.toNat - 1 := by
        rw [htv]
        exact ceilDiv_sub_min (by omega) (by omega)
      have hceil2 : 1 ≤ ceilDiv (s.rem i).toNat q.toNat :=
        ceilDiv_pos (by omega) (by omega)
      rw [hstate]
      unfold rrMeasure
      dsimp only
      rw [hqueue]
      by_cases h2 : 0 < s.rem i - min q (s.rem i)
      · rw [if_pos h2]
        simp only [List.length_append, List.length_cons, List.length_nil]
        omega
      · rw [if_neg h2]
        simp only [List.length_append, List.length_cons]
        omega
    · -- remaining time was already ≤ 0: zero-length slice, no requeue, no arrivals
      have hexec : min q (s.rem i) = s.rem i := min_eq_right (by omega)
      have hFnil : F = [] := by
        rw [List.eq_nil_iff_forall_not_mem]
        intro k hk
        have h := (hF k hk).2.1
        omega
      have h2 : ¬ 0 < s.rem i - min q (s.rem i) := by omega
      have hceq : ceilDiv (s.rem i - min q (s.rem i)).toNat q.toNat =
          ceilDiv (s.rem i).toNat q.toNat := by
        have hz1 : (s.rem i - min q (s.rem i)).toNat = 0 := by omega
        have hz2 : (s.rem i).toNat = 0 := by omega
        rw [hz1, hz2]
      rw [hstate]
      unfold rrMeasure
      dsimp only
      rw [hqueue, if_neg h2, hFnil]
      simp only [List.map_nil, List.append_nil, List.length_append, List.length_cons]
      omega

theorem rrMeasure_zero_exit {ps : List Process} {q : Int} {s : RRState}
    (hm : rrMeasure ps q s = 0) : s.queue = [] ∧ rrPending ps s = false := by
  unfold rrMeasure at hm
  have hql : s.queue.length = 0 := by omega
  have hne : rrNotEnq ps s.enqueued = 0 := by omega
  refine ⟨List.eq_nil_of_length_eq_zero hql, rrPending_eq_false_iff.mpr ?_⟩
  intro i hi _
  by_contra hc
  have hmem : i ∈ (List.range ps.length).filter
      (fun i => !(s.enqueued.contains (pidAt ps i))) := by
    rw [List.mem_filter]
    exact ⟨List.mem_range.mpr hi, by simpa using hc⟩
  unfold rrNotEnq at hne
  rw [List.length_eq_zero] at hne
  rw [hne] at hmem
  simp at hmem

theorem rrLoop_exit_state {ps : List Process} {q : Int} {s : RRState}
    (h1 : s.queue = []) (h2 : rrPending ps s = false) :
    ∀ fuel, rrLoop ps q fuel s = s := by
  intro fuel
  cases fuel with
  | zero => rfl
  | succ fuel =>
    have hg : (s.queue.isEmpty && !(rrPending ps s)) = true := by
      simp [h1, h2]
    simp [rrLoop, hg]

theorem rrLoop_no_break {ps : List Process} {s : RRState}
    (hg1 : ¬(s.queue.isEmpty && !(rrPending ps s)) = true) :
    (s.queue.isEmpty && (rrNextArrival ps s).isNone) = false := by
  cases hqe : s.queue.isEmpty with
  | false => simp
  | true =>
    have hpend : rrPending ps s = true := by
      rcases Bool.eq_false_or_eq_true (rrPending ps s) with h | h
      · exact h
      · exact absurd (by simp [hqe, h]) hg1
    obtain ⟨j, hj⟩ := rrNextArrival_isSome hpend
    simp [hj]

theorem rrLoop_exit {ps : List Process} {q : Int} (hq : 1 ≤ q) :
    ∀ (fuel : Nat) (s : RRState), (∀ i ∈ s.queue, i < ps.length) →
      rrMeasure ps q s ≤ fuel →
      (rrLoop ps q fuel s).queue = [] ∧
        rrPending ps (rrLoop ps q fuel s) = false := by
  intro fuel
  induction fuel with
  | zero =>
    intro s _ hm
    have := rrMeasure_zero_exit (Nat.le_zero.mp hm)
    simpa [rrLoop] using this
  | succ fuel ih =>
    intro s hr hm
    by_cases hg1 : (s.queue.isEmpty && !(rrPending ps s)) = true
    · have h1 : s.queue = [] := List.isEmpty_iff.mp (Bool.and_eq_true_iff.mp hg1).1
      have h2 : rrPending ps s = false := by
        have := (Bool.and_eq_true_iff.mp hg1).2
        simpa using this
      rw [rrLoop_exit_state h1 h2]
      exact ⟨h1, h2⟩
    · have hbreak := rrLoop_no_break hg1
      have hg1' : ¬(s.queue.isEmpty = true ∧ rrPending ps s = false) := by
        rintro ⟨h1, h2⟩
        exact hg1 (by simp [h1, h2])
      have hstep := rrStep_measure_lt hq hr hg1'
      have hunfold : rrLoop ps q (fuel + 1) s = rrLoop ps q fuel (rrStep ps q s) := by
        rw [show rrLoop ps q (fuel + 1) s = (if (s.queue.isEmpty && !(rrPending ps s)) = true
          then s else if (s.queue.isEmpty && (rrNextArrival ps s).isNone) = true then s
          else rrLoop ps q fuel (rrStep ps q s)) from rfl]
        rw [if_neg hg1, if_neg (by rw [hbreak]; simp)]
      rw [hunfold]
      exact ih (rrStep ps q s) hstep.2 (by omega)

theorem rrLoop_fuel_irrel {ps : List Process} {q : Int} (hq : 1 ≤ q) :
    ∀ (fuel k : Nat) (s : RRState), (∀ i ∈ s.queue, i < ps.length) →
      rrMeasure ps q s ≤ fuel →
      rrLoop ps q (fuel + k) s = rrLoop ps q fuel s := by
  intro fuel
  induction fuel with
  | zero =>
    intro k s _ hm
    have hex := rrMeasure_zero_exit (Nat.le_zero.mp hm)
    rw [rrLoop_exit_state hex.1 hex.2]
    rfl
  | succ fuel ih =>
    intro k s hr hm
    by_cases hg1 : (s.queue.isEmpty && !(rrPending ps s)) = true
    · have h1 : s.queue = [] := List.isEmpty_iff.mp (Bool.and_eq_true_iff.mp hg1).1
      have h2 : rrPending ps s = false := by
        have := (Bool.and_eq_true_iff.mp hg1).2
        simpa using this
      rw [rrLoop_exit_state h1 h2, rrLoop_exit_state h1 h2]
    · have hbreak := rrLoop_no_break hg1
      have hg1' : ¬(s.queue.isEmpty = true ∧ rrPending ps s = false) := by
        rintro ⟨h1, h2⟩
        exact hg1 (by simp [h1, h2])
      have hstep := rrStep_measure_lt hq hr hg1'
      have hunfold : ∀ f, rrLoop ps q (f + 1) s = rrLoop ps q f (rrStep ps q s) := by
        intro f
        rw [show rrLoop ps q (f + 1) s = (if (s.queue.isEmpty && !(rrPending ps s)) = true
          then s else if (s.queue.isEmpty && (rrNextArrival ps s).isNone) = true then s
          else rrLoop ps q f (rrStep ps q s)) from rfl]
        rw [if_neg hg1, if_neg (by rw [hbreak]; simp)]
      have hshift : fuel + 1 + k = (fuel + k) + 1 := by omega
      rw [hshift, hunfold (fuel + k), hunfold fuel]
      exact ih k (rrStep ps q s) hstep.2 (by omega)

theorem getD_mem {ps : List Process} {i : Nat} (hi : i < ps.length) :
    ps.getD i default ∈ ps := by
  rw [List.getD_eq_getElem?_getD, List.getElem?_eq_getElem hi]
  exact List.getElem_mem _

/-- Invariant of the Round-Robin loop state (for well-formed input). -/
structure RRInv (ps : List Process) (s : RRState) : Prop where
  queue_lt : ∀ i ∈ s.queue, i < ps.length
  queue_enq : ∀ i ∈ s.queue, pidAt ps i ∈ s.enqueued
  queue_rem : ∀ i ∈ s.queue, 1 ≤ s.rem i
  queue_nodup : s.queue.Nodup
  rem_le : ∀ i, i < ps.length → s.rem i ≤ burstAt ps i ∧ 0 ≤ s.rem i
  not_enq_rem : ∀ i, i < ps.length → pidAt ps i ∉ s.enqueued →
    s.rem i = burstAt ps i
  enq_time : ∀ i, i < ps.length → pidAt ps i ∈ s.enqueued →
    arrAt ps i + (burstAt ps i - s.rem i) ≤ s.currentTime
  arrived_enq : ∀ i, i < ps.length → arrAt ps i ≤ s.currentTime →
    pidAt ps i ∈ s.enqueued
  inqueue : ∀ i, i < ps.length → pidAt ps i ∈ s.enqueued → 1 ≤ s.rem i →
    i ∈ s.queue
  fin : ∀ kf ∈ s.finishTime, ∃ i, i < ps.length ∧ pidAt ps i = kf.1 ∧
    arrAt ps i + burstAt ps i ≤ kf.2 ∧ kf.2 ≤ s.currentTime ∧ s.rem i = 0
  fin_keys : (s.finishTime.map Prod.fst).Nodup
  done_fin : ∀ i, i < ps.length → s.rem i = 0 → pidAt ps i ∈ s.enqueued →
    ∃ f, (pidAt ps i, f) ∈ s.finishTime
  gantt_stop : ∀ iv ∈ s.gantt, iv.stop ≤ s.currentTime
  gantt_chain : List.Chain' (fun a b => a.stop ≤ b.start) s.gantt
  gantt_ok : ∀ iv ∈ s.gantt, iv.start < iv.stop ∧ ∃ p ∈ ps, p.id = iv.pid ∧
    p.arrivalTime ≤ iv.start

theorem wf_burst {ps : List Process} (hwf : WellFormed ps) {i : Nat}
    (hi : i < ps.length) : 1 ≤ burstAt ps i :=
  (hwf.1 (ps.getD i default) (getD_mem hi)).2.1

theorem wf_arr {ps : List Process} (hwf : WellFormed ps) {i : Nat}
    (hi : i < ps.length) : 0 ≤ arrAt ps i :=
  (hwf.1 (ps.getD i default) (getD_mem hi)).1

theorem rrInit_inv {ps : List Process} (hwf : WellFormed ps) :
    RRInv ps (rrInit ps) := by
  obtain ⟨F, heq, hF, hnd, hall⟩ := enqueueIf_spec ps
    (fun i => decide (arrAt ps i ≤ 0)) (rrSorted ps) [] []
  have hstate : rrInit ps =
      { rem := fun i => burstAt ps i
        gantt := []
        finishTime := []
        currentTime := 0
        queue := F
        enqueued := F.map (pidAt ps) } := by
    unfold rrInit
    simp only [heq, List.nil_append]
  rw [hstate]
  have hFlt : ∀ k ∈ F, k < ps.length := fun k hk => rrSorted_mem.mp (hF k hk).1
  have hFe : ∀ i, i < ps.length → pidAt ps i ∈ F.map (pidAt ps) → i ∈ F := by
    intro i hi hmem
    obtain ⟨k, hk, hkeq⟩ := List.mem_map.mp hmem
    obtain rfl : k = i := pidAt_inj hwf.2 (hFlt k hk) hi hkeq
    exact hk
  refine ⟨?_, ?_, ?_, ?_, ?_, ?_, ?_, ?_, ?_, ?_, ?_, ?_, ?_, ?_, ?_⟩
  · exact fun i hi => hFlt i hi
  · exact fun i hi => List.mem_map_of_mem _ hi
  · intro i hi
    exact wf_burst hwf (hFlt i hi)
  · exact hnd.of_map
  · intro i hi
    dsimp only
    have := wf_burst hwf hi
    omega
  · intro i _ _
    rfl
  · intro i hi hmem
    have hiF := hFe i hi hmem
    have harr : arrAt ps i ≤ 0 := by
      have := (hF i hiF).2.1
      simpa using this
    dsimp only
    omega
  · intro i hi harr
    have := hall i (rrSorted_mem.mpr hi) (by simpa using harr)
    simpa using this
  · intro i hi hmem _
    exact hFe i hi hmem
  · intro kf hkf
    simp at hkf
  · simp
  · intro i hi hrem _
    have := wf_burst hwf hi
    dsimp only at hrem
    omega
  · intro iv hiv
    simp at hiv
  · simp
  · intro iv hiv
    simp at hiv

theorem rrStep_inv {ps : List Process} {q : Int} (hwf : WellFormed ps) (hq : 1 ≤ q)
    {s : RRState} (hInv : RRInv ps s)
    (hg1 : ¬(s.queue.isEmpty = true ∧ rrPending ps s = false)) :
    RRInv ps (rrStep ps q s) := by
  cases hqueue : s.queue with
  | nil =>
    have hpend : rrPending ps s = true := by
      rcases Bool.eq_false_or_eq_true (rrPending ps s) with h | h
      · exact h
      · exact absurd ⟨by rw [hqueue]; rfl, h⟩ hg1
    obtain ⟨j, hj⟩ := rrNextArrival_isSome hpend
    obtain ⟨F, hF, hndF, hFne, hall, hstate⟩ := rrStep_idle (q := q) hqueue hj
    obtain ⟨hjs, hje⟩ := rrNextArrival_mem hj
    have hjlt : j < ps.length := rrSorted_mem.mp hjs
    have hcur : s.currentTime < arrAt ps j := by
      by_contra hc
      exact hje (hInv.arrived_enq j hjlt (by omega))
    have hFlt : ∀ k ∈ F, k < ps.length := fun k hk => rrSorted_mem.mp (hF k hk).1
    have hFe : ∀ k, k < ps.length → pidAt ps k ∈ F.map (pidAt ps) → k ∈ F := by
      intro k hk hmem
      obtain ⟨k2, hk2, hk2eq⟩ := List.mem_map.mp hmem
      obtain rfl : k2 = k := pidAt_inj hwf.2 (hFlt k2 hk2) hk hk2eq
      exact hk2
    rw [hstate]
    refine ⟨?_, ?_, ?_, ?_, ?_, ?_, ?_, ?_, ?_, ?_, ?_, ?_, ?_, ?_, ?_⟩
    · exact fun k hk => hFlt k hk
    · exact fun k hk => List.mem_append.mpr (Or.inr (List.mem_map_of_mem _ hk))
    · intro k hk
      have := hInv.not_enq_rem k (hFlt k hk) (hF k hk).2.2
      have hb := wf_burst hwf (hFlt k hk)
      dsimp only
      omega
    · exact hndF.of_map
    · exact hInv.rem_le
    · intro k hk hne
      exact hInv.not_enq_rem k hk
        (fun hc => hne (List.mem_append.mpr (Or.inl hc)))
    · intro k hk hmem
      dsimp only
      rcases List.mem_append.mp hmem with hmem | hmem
      · have := hInv.enq_time k hk hmem
        omega
      · have hkF := hFe k hk hmem
        have hre := hInv.not_enq_rem k hk (hF k hkF).2.2
        have := (hF k hkF).2.1
        omega
    · intro k hk harr
      exact hall k (rrSorted_mem.mpr hk) harr
    · intro k hk hmem hrem
      rcases List.mem_append.mp hmem with hmem | hmem
      · have := hInv.inqueue k hk hmem hrem
        rw [hqueue] at this
        simp at this
      · exact hFe k hk hmem
    · intro kf hkf
      obtain ⟨i2, hi2, hp2, hf2, hc2, hr2⟩ := hInv.fin kf hkf
      exact ⟨i2, hi2, hp2, hf2, by dsimp only; omega, hr2⟩
    · exact hInv.fin_keys
    · intro k hk hrem hmem
      have hrem2 : s.rem k = 0 := hrem
      rcases List.mem_append.mp hmem with hmem | hmem
      · exact hInv.done_fin k hk hrem2 hmem
      · have hkF := hFe k hk hmem
        have hre := hInv.not_enq_rem k hk (hF k hkF).2.2
        have hb := wf_burst hwf hk
        omega
    · intro iv hiv
      have := hInv.gantt_stop iv hiv
      dsimp only
      omega
    · exact hInv.gantt_chain
    · exact hInv.gantt_ok
  | cons i rest =>
    obtain ⟨F, hF, hndF, hall, hstate⟩ := rrStep_run (q := q) hqueue
    have hi : i < ps.length := hInv.queue_lt i (by rw [hqueue]; simp)
    have hig : i ∈ s.queue := by rw [hqueue]; simp
    have hri : 1 ≤ s.rem i := hInv.queue_rem i hig
    have hie : pidAt ps i ∈ s.enqueued := hInv.queue_enq i hig
    have hexec : 1 ≤ min q (s.rem i) := le_min hq hri
    have hexec2 : min q (s.rem i) ≤ s.rem i := min_le_right _ _
    have hFlt : ∀ k ∈ F, k < ps.length := fun k hk => rrSorted_mem.mp (hF k hk).1
    have hFe : ∀ k, k < ps.length → pidAt ps k ∈ F.map (pidAt ps) → k ∈ F := by
      intro k hk hmem
      obtain ⟨k2, hk2, hk2eq⟩ := List.mem_map.mp hmem
      obtain rfl : k2 = k := pidAt_inj hwf.2 (hFlt k2 hk2) hk hk2eq
      exact hk2
    have hFnotI : i ∉ F := fun hc => (hF i hc).2.2 hie
    have hFrest : ∀ k ∈ F, k ∉ rest := by
      intro k hk hc
      exact (hF k hk).2.2 (hInv.queue_enq k (by rw [hqueue]; simp [hc]))
    have hconsnd : (i :: rest).Nodup := by rw [← hqueue]; exact hInv.queue_nodup
    have hrestnd : rest.Nodup := (List.nodup_cons.mp hconsnd).2
    have hinotrest : i ∉ rest := (List.nodup_cons.mp hconsnd).1
    have hFnd : F.Nodup := hndF.of_map
    have hqa : ∀ k ∈ rest, k < ps.length := by
      intro k hk
      exact hInv.queue_lt k (by rw [hqueue]; simp [hk])
    have henq_i := hInv.enq_time i hi hie
    have hreml := hInv.rem_le i hi
    rw [hstate]
    -- The new remaining-time function and clock.
    set r2 := s.rem i - min q (s.rem i) with hr2def
    set stop := s.currentTime + min q (s.rem i) with hstopdef
    have hstopgt : s.currentTime < stop := by omega
    refine ⟨?_, ?_, ?_, ?_, ?_, ?_, ?_, ?_, ?_, ?_, ?_, ?_, ?_, ?_, ?_⟩
    · -- queue_lt
      intro k hk
      dsimp only at hk
      by_cases h2 : 0 < r2
      · rw [if_pos h2] at hk
        rcases List.mem_append.mp hk with hk | hk
        · rcases List.mem_append.mp hk with hk | hk
          · exact hqa k hk
          · exact hFlt k hk
        · obtain rfl : k = i := by simpa using hk
          exact hi
      · rw [if_neg h2] at hk
        rcases List.mem_append.mp hk with hk | hk
        · exact hqa k hk
        · exact hFlt k hk
    · -- queue_enq
      intro k hk
      dsimp only at hk ⊢
      by_cases h2 : 0 < r2
      · rw [if_pos h2] at hk
        rcases List.mem_append.mp hk with hk | hk
        · rcases List.mem_append.mp hk with hk | hk
          · exact List.mem_append.mpr (Or.inl
              (hInv.queue_enq k (by rw [hqueue]; simp [hk])))
          · exact List.mem_append.mpr (Or.inr (List.mem_map_of_mem _ hk))
        · obtain rfl : k = i := by simpa using hk
          exact List.mem_append.mpr (Or.inl hie)
      · rw [if_neg h2] at hk
        rcases List.mem_append.mp hk with hk | hk
        · exact List.mem_append.mpr (Or.inl
            (hInv.queue_enq k (by rw [hqueue]; simp [hk])))
        · exact List.mem_append.mpr (Or.inr (List.mem_map_of_mem _ hk))
    · -- queue_rem
      intro k hk
      dsimp only at hk ⊢
      by_cases h2 : 0 < r2
      · rw [if_pos h2] at hk
        rcases List.mem_append.mp hk with hk | hk
        · rcases List.mem_append.mp hk with hk | hk
          · have hkne : k ≠ i := fun hc => hinotrest (hc ▸ hk)
            rw [if_neg hkne]
            exact hInv.queue_rem k (by rw [hqueue]; simp [hk])
          · have hkne : k ≠ i := fun hc => hFnotI (hc ▸ hk)
            rw [if_neg hkne]
            have := hInv.not_enq_rem k (hFlt k hk) (hF k hk).2.2
            have := wf_burst hwf (hFlt k hk)
            omega
        · obtain rfl : k = i := by simpa using hk
          rw [if_pos rfl]
          omega
      · rw [if_neg h2] at hk
        rcases List.mem_append.mp hk with hk | hk
        · have hkne : k ≠ i := fun hc => hinotrest (hc ▸ hk)
          rw [if_neg hkne]
          exact hInv.queue_rem k (by rw [hqueue]; simp [hk])
        · have hkne : k ≠ i := fun hc => hFnotI (hc ▸ hk)
          rw [if_neg hkne]
          have := hInv.not_enq_rem k (hFlt k hk) (hF k hk).2.2
          have := wf_burst hwf (hFlt k hk)
          omega
    · -- queue_nodup
      dsimp only
      have hrF : (rest ++ F).Nodup := by
        rw [List.nodup_append]
        exact ⟨hrestnd, hFnd, fun k hk hkF => hFrest k hkF hk⟩
      by_cases h2 : 0 < r2
      · rw [if_pos h2]
        rw [List.nodup_append]
        refine ⟨hrF, List.nodup_singleton _, ?_⟩
        intro k hk hki
        obtain rfl : k = i := by simpa using hki
        rcases List.mem_append.mp hk with hk | hk
        · exact hinotrest hk
        · exact hFnotI hk
      · rw [if_neg h2]
        exact hrF
    · -- rem_le
      intro k hk
      dsimp only
      by_cases hki : k = i
      · subst hki
        rw [if_pos rfl]
        omega
      · rw [if_neg hki]
        exact hInv.rem_le k hk
    · -- not_enq_rem
      intro k hk hne
      dsimp only at hne ⊢
      have hne1 : pidAt ps k ∉ s.enqueued := fun hc =>
        hne (List.mem_append.mpr (Or.inl hc))
      have hki : k ≠ i := fun hc => hne1 (hc ▸ hie)
      rw [if_neg hki]
      exact hInv.not_enq_rem k hk hne1
    · -- enq_time
      intro k hk hmem
      dsimp only at hmem ⊢
      rcases List.mem_append.mp hmem with hmem | hmem
      · have hold := hInv.enq_time k hk hmem
        by_cases hki : k = i
        · subst hki
          rw [if_pos rfl]
          omega
        · rw [if_neg hki]
          omega
      · have hkF := hFe k hk hmem
        have hki : k ≠ i := fun hc => hFnotI (hc ▸ hkF)
        rw [if_neg hki]
        have hre := hInv.not_enq_rem k hk (hF k hkF).2.2
        have := (hF k hkF).2.1
        omega
    · -- arrived_enq
      intro k hk harr
      dsimp only at harr ⊢
      by_cases hold : arrAt ps k ≤ s.currentTime
      · exact List.mem_append.mpr (Or.inl (hInv.arrived_enq k hk hold))
      · exact hall k (rrSorted_mem.mpr hk) (by omega) harr
    · -- inqueue
      intro k hk hmem hrem
      dsimp only at hmem hrem ⊢
      rcases List.mem_append.mp hmem with hmem | hmem
      · by_cases hki : k = i
        · subst hki
          rw [if_pos rfl] at hrem
          have h2 : 0 < r2 := by omega
          rw [if_pos h2]
          simp
        · rw [if_neg hki] at hrem
          have := hInv.inqueue k hk hmem hrem
          rw [hqueue] at this
          rcases List.mem_cons.mp this with hc | hc
          · exact absurd hc hki
          · by_cases h2 : 0 < r2
            · rw [if_pos h2]
              exact List.mem_append.mpr (Or.inl (List.mem_append.mpr (Or.inl hc)))
            · rw [if_neg h2]
              exact List.mem_append.mpr (Or.inl hc)
      · have hkF := hFe k hk hmem
        by_cases h2 : 0 < r2
        · rw [if_pos h2]
          exact List.mem_append.mpr (Or.inl (List.mem_append.mpr (Or.inr hkF)))
        · rw [if_neg h2]
          exact List.mem_append.mpr (Or.inr hkF)
    · -- fin
      intro kf hkf
      dsimp only at hkf ⊢
      have hold : ∀ kf2 ∈ s.finishTime, ∃ i2, i2 < ps.length ∧
          pidAt ps i2 = kf2.1 ∧ arrAt ps i2 + burstAt ps i2 ≤ kf2.2 ∧
          kf2.2 ≤ stop ∧
          (if i2 = i then r2 else s.rem i2) = 0 := by
        intro kf2 hkf2
        obtain ⟨i2, hi2, hp2, hf2, hc2, hr2⟩ := hInv.fin kf2 hkf2
        have hi2ne : i2 ≠ i := by
          intro hc
          subst hc
          omega
        exact ⟨i2, hi2, hp2, hf2, by omega, by rw [if_neg hi2ne]; exact hr2⟩
      by_cases h2 : 0 < r2
      · rw [if_pos h2] at hkf
        exact hold kf hkf
      · rw [if_neg h2] at hkf
        rcases List.mem_cons.mp hkf with heq | hkf
        · subst heq
          refine ⟨i, hi, rfl, ?_, le_refl _, by rw [if_pos rfl]; omega⟩
          dsimp only
          omega
        · exact hold kf hkf
    · -- fin_keys
      dsimp only
      by_cases h2 : 0 < r2
      · rw [if_pos h2]
        exact hInv.fin_keys
      · rw [if_neg h2]
        rw [List.map_cons, List.nodup_cons]
        refine ⟨?_, hInv.fin_keys⟩
        intro hc
        obtain ⟨kf, hkf, hkfeq⟩ := List.mem_map.mp hc
        obtain ⟨i2, hi2, hp2, _, _, hr2⟩ := hInv.fin kf hkf
        have : i2 = i := pidAt_inj hwf.2 hi2 hi (by rw [hp2, hkfeq])
        subst this
        omega
    · -- done_fin
      intro k hk hrem hmem
      dsimp only at hrem hmem ⊢
      by_cases hki : k = i
      · subst hki
        rw [if_pos rfl] at hrem
        have h2 : ¬ 0 < r2 := by omega
        rw [if_neg h2]
        exact ⟨stop, by simp⟩
      · rw [if_neg hki] at hrem
        have hmem2 : pidAt ps k ∈ s.enqueued := by
          rcases List.mem_append.mp hmem with hmem | hmem
          · exact hmem
          · have hkF := hFe k hk hmem
            have := hInv.not_enq_rem k hk (hF k hkF).2.2
            have := wf_burst hwf hk
            omega
        obtain ⟨f, hf⟩ := hInv.done_fin k hk hrem hmem2
        by_cases h2 : 0 < r2
        · rw [if_pos h2]
          exact ⟨f, hf⟩
        · rw [if_neg h2]
          exact ⟨f, List.mem_cons_of_mem _ hf⟩
    · -- gantt_stop
      intro iv hiv
      dsimp only at hiv ⊢
      rcases List.mem_append.mp hiv with hiv | hiv
      · have := hInv.gantt_stop iv hiv
        omega
      · obtain rfl : iv = ⟨pidAt ps i, s.currentTime, stop⟩ := by simpa using hiv
        exact le_refl _
    · -- gantt_chain
      dsimp only
      rw [List.chain'_append]
      refine ⟨hInv.gantt_chain, List.chain'_singleton _, ?_⟩
      intro x hx y hy
      have hyeq : ({ pid := pidAt ps i, start := s.currentTime, stop := stop } :
          Interval) = y := by simpa using hy
      have hxm : x ∈ s.gantt := List.mem_of_mem_getLast? hx
      have hxs := hInv.gantt_stop x hxm
      rw [← hyeq]
      show x.stop ≤ s.currentTime
      omega
    · -- gantt_ok
      intro iv hiv
      dsimp only at hiv
      rcases List.mem_append.mp hiv with hiv | hiv
      · exact hInv.gantt_ok iv hiv
      · obtain rfl : iv = ⟨pidAt ps i, s.currentTime, stop⟩ := by simpa using hiv
        refine ⟨by dsimp only; omega, ps.getD i default, getD_mem hi, rfl, ?_⟩
        dsimp only
        have harr_eq : (ps.getD i default).arrivalTime = arrAt ps i := rfl
        have := hInv.rem_le i hi
        omega

theorem rrLoop_inv {ps : List Process} {q : Int} (hwf : WellFormed ps) (hq : 1 ≤ q) :
    ∀ (fuel : Nat) (s : RRState), RRInv ps s → RRInv ps (rrLoop ps q fuel s) := by
  intro fuel
  induction fuel with
  | zero => intro s h; exact h
  | succ fuel ih =>
    intro s h
    by_cases hg1 : (s.queue.isEmpty && !(rrPending ps s)) = true
    · have h1 : s.queue = [] := List.isEmpty_iff.mp (Bool.and_eq_true_iff.mp hg1).1
      have h2 : rrPending ps s = false := by
        have := (Bool.and_eq_true_iff.mp hg1).2
        simpa using this
      rw [rrLoop_exit_state h1 h2]
      exact h
    · have hbreak := rrLoop_no_break hg1
      have hg1' : ¬(s.queue.isEmpty = true ∧ rrPending ps s = false) := by
        rintro ⟨h1, h2⟩
        exact hg1 (by simp [h1, h2])
      have hunfold : rrLoop ps q (fuel + 1) s = rrLoop ps q fuel (rrStep ps q s) := by
        rw [show rrLoop ps q (fuel + 1) s = (if (s.queue.isEmpty && !(rrPending ps s)) = true
          then s else if (s.queue.isEmpty && (rrNextArrival ps s).isNone) = true then s
          else rrLoop ps q fuel (rrStep ps q s)) from rfl]
        rw [if_neg hg1, if_neg (by rw [hbreak]; simp)]
      rw [hunfold]
      exact ih _ (rrStep_inv hwf hq h hg1')

theorem lookup_of_mem_nodup :
    ∀ {l : List (Int × Int)}, (l.map Prod.fst).Nodup →
      ∀ {k v : Int}, (k, v) ∈ l → l.lookup k = some v := by
  intro l
  induction l with
  | nil => intro _ k v h; simp at h
  | cons e rest ih =>
    intro hnd k v hm
    have hnd2 : (e.1 :: rest.map Prod.fst).Nodup := by
      rw [List.map_cons] at hnd
      exact hnd
    have hnd1 := List.nodup_cons.mp hnd2
    rcases List.mem_cons.mp hm with heq | hm
    · rw [show e = (k, v) from heq.symm]
      simp [List.lookup]
    · have hk : k ≠ e.1 := by
        intro hc
        apply hnd1.1
        rw [hc] at hm
        exact List.mem_map.mpr ⟨(e.1, v), hm, rfl⟩
      have hbeq : (k == e.1) = false := by simpa using hk
      simp only [List.lookup, hbeq]
      exact ih hnd1.2 hm

/-- The state at the end of the Round-Robin loop satisfies the invariant and
the loop's exit condition. -/
theorem rr_final {ps : List Process} {q : Int} (hwf : WellFormed ps) (hq : 1 ≤ q) :
    RRInv ps (rrLoop ps q (rrFuel ps q) (rrInit ps)) ∧
    (rrLoop ps q (rrFuel ps q) (rrInit ps)).queue = [] ∧
    rrPending ps (rrLoop ps q (rrFuel ps q) (rrInit ps)) = false := by
  have hinv0 := rrInit_inv hwf
  have hrange : ∀ i ∈ (rrInit ps).queue, i < ps.length := hinv0.queue_lt
  have hex := rrLoop_exit hq (rrFuel ps q) (rrInit ps) hrange le_rfl
  exact ⟨rrLoop_inv hwf hq _ _ hinv0, hex⟩

theorem rr_index_of_mem {ps : List Process} {p : Process} (hp : p ∈ ps) :
    ∃ i, i < ps.length ∧ ps.getD i default = p := by
  obtain ⟨i, hi, hpi⟩ := List.mem_iff_getElem.mp hp
  refine ⟨i, hi, ?_⟩
  rw [List.getD_eq_getElem?_getD, List.getElem?_eq_getElem hi]
  simpa using hpi

/-- Every input process is recorded in the final `finishTime` map, at a
time no earlier than its arrival plus its burst and no later than the final
clock. -/
theorem rr_finish_lookup {ps : List Process} {q : Int} (hwf : WellFormed ps)
    (hq : 1 ≤ q) : ∀ p ∈ ps,
    ∃ f, (rrLoop ps q (rrFuel ps q) (rrInit ps)).finishTime.lookup p.id = some f ∧
      p.arrivalTime + p.burstTime ≤ f ∧
      f ≤ (rrLoop ps q (rrFuel ps q) (rrInit ps)).currentTime := by
  obtain ⟨hinv, hqe, hpend⟩ := rr_final hwf hq
  intro p hp
  obtain ⟨i, hi, hpi⟩ := rr_index_of_mem hp
  have hpid : pidAt ps i = p.id := by rw [pidAt, hpi]
  have harr : arrAt ps i = p.arrivalTime := by rw [arrAt, hpi]
  have hburst : burstAt ps i = p.burstTime := by rw [burstAt, hpi]
  have hrem0 : (rrLoop ps q (rrFuel ps q) (rrInit ps)).rem i = 0 := by
    by_contra hne
    have h1 : 0 < (rrLoop ps q (rrFuel ps q) (rrInit ps)).rem i := by
      have := (hinv.rem_le i hi).2
      omega
    by_cases he : pidAt ps i ∈ (rrLoop ps q (rrFuel ps q) (rrInit ps)).enqueued
    · have := hinv.inqueue i hi he (by omega)
      rw [hqe] at this
      simp at this
    · exact he (rrPending_eq_false_iff.mp hpend i hi h1)
  have hpe : pidAt ps i ∈ (rrLoop ps q (rrFuel ps q) (rrInit ps)).enqueued := by
    by_contra he
    have h1 := hinv.not_enq_rem i hi he
    have h2 := wf_burst hwf hi
    omega
  obtain ⟨f, hf⟩ := hinv.done_fin i hi hrem0 hpe
  obtain ⟨i2, hi2, hp2, hff, hfc, _⟩ := hinv.fin (pidAt ps i, f) hf
  obtain rfl : i2 = i := pidAt_inj hwf.2 hi2 hi hp2
  have hlk := lookup_of_mem_nodup hinv.fin_keys hf
  rw [hpid] at hlk
  rw [harr, hburst] at hff
  exact ⟨f, hlk, hff, hfc⟩

theorem rrLoop_cons {ps : List Process} {q : Int} {s : RRState} (fuel : Nat)
    (h : s.queue ≠ []) :
    rrLoop ps q (fuel + 1) s = rrLoop ps q fuel (rrStep ps q s) := by
  have hqe : s.queue.isEmpty = false := by
    cases hs : s.queue with
    | nil => exact absurd hs h
    | cons a l => rfl
  rw [show rrLoop ps q (fuel + 1) s = (if (s.queue.isEmpty && !(rrPending ps s)) = true
    then s else if (s.queue.isEmpty && (rrNextArrival ps s).isNone) = true then s
    else rrLoop ps q fuel (rrStep ps q s)) from rfl]
  rw [hqe]
  simp

theorem rrSorted_single (p : Process) : rrSorted [p] = [0] := by
  have h := rrSorted_perm [p]
  have h1 : List.range ([p] : List Process).length = [0] := by
    simp [List.range_succ]
  rw [h1] at h
  exact List.perm_singleton.mp h

theorem enqueueIf_single (p : Process) (cond : Nat → Bool) (qq : List Nat) :
    enqueueIf [p] cond [0] qq [p.id] = (qq, [p.id]) := by
  have hpid : pidAt [p] 0 = p.id := rfl
  simp [enqueueIf, hpid]

/-- The loop state with a single enqueued process (index `0`). -/
def rrSingleState (f : Nat → Int) (g0 : List Interval) (c : Int) (pid : Int) : RRState :=
  { rem := f, gantt := g0, finishTime := [], currentTime := c, queue := [0],
    enqueued := [pid] }

/-- The loop state before anything has arrived. -/
def rrEmptyState (f : Nat → Int) : RRState :=
  { rem := f, gantt := [], finishTime := [], currentTime := 0, queue := [],
    enqueued := [] }

/-- A single enqueued process with remaining time `r ≥ 1` runs back-to-back
slices until completion: `⌈r/quantum⌉` intervals starting at the current
clock, finishing exactly `r` time units later. -/
theorem rr_single_loop {p : Process} {q : Int} (hq : 1 ≤ q) :
    ∀ (fuel : Nat) (c r : Int) (f : Nat → Int) (g0 : List Interval),
      1 ≤ r → ceilDiv r.toNat q.toNat ≤ fuel → f 0 = r →
      ∃ L : List Interval,
        (rrLoop [p] q fuel (rrSingleState f g0 c p.id)).gantt = g0 ++ L ∧
        L.length = ceilDiv r.toNat q.toNat ∧
        L.head? = some ⟨p.id, c, c + min q r⟩ ∧
        (rrLoop [p] q fuel (rrSingleState f g0 c p.id)).finishTime =
          [(p.id, c + r)] ∧
        (rrLoop [p] q fuel (rrSingleState f g0 c p.id)).currentTime = c + r := by
  intro fuel
  induction fuel with
  | zero =>
    intro c r f g0 hr hfuel _
    have := ceilDiv_pos (a := r.toNat) (b := q.toNat) (by omega) (by omega)
    omega
  | succ fuel ih =>
    intro c r f g0 hr hfuel hf0
    set s : RRState := rrSingleState f g0 c p.id with hsdef
    have hpid : pidAt [p] 0 = p.id := rfl
    have hstep0 : rrStep [p] q s =
        (if 0 < r - min q r then
          { rem := fun j => if j = 0 then r - min q r else f j
            gantt := g0 ++ [⟨p.id, c, c + min q r⟩]
            finishTime := []
            currentTime := c + min q r
            queue := [0]
            enqueued := [p.id] }
        else
          { rem := fun j => if j = 0 then r - min q r else f j
            gantt := g0 ++ [⟨p.id, c, c + min q r⟩]
            finishTime := [(p.id, c + min q r)]
            currentTime := c + min q r
            queue := []
            enqueued := [p.id] }) := by
      rw [hsdef]
      unfold rrSingleState rrStep
      dsimp only
      rw [rrSorted_single, enqueueIf_single]
      simp only [hf0, hpid, List.nil_append]
    have hloop := @rrLoop_cons [p] q s fuel (by
      show ([0] : List Nat) ≠ []
      simp)
    by_cases hcase : r ≤ q
    · -- final slice
      have hmin : min q r = r := min_eq_right hcase
      have h2 : ¬ 0 < r - min q r := by omega
      have hceil : ceilDiv r.toNat q.toNat = 1 :=
        (ceilDiv_eq_one_iff (by omega) (by omega)).mpr (by omega)
      rw [hloop, hstep0, if_neg h2]
      have hdone : rrPending [p]
          { rem := fun j => if j = 0 then r - min q r else f j
            gantt := g0 ++ [⟨p.id, c, c + min q r⟩]
            finishTime := [(p.id, c + min q r)]
            currentTime := c + min q r
            queue := []
            enqueued := [p.id] } = false := by
        unfold rrPending
        rw [List.any_eq_false]
        intro x hx
        have hx0 : x = 0 := by simpa using hx
        subst hx0
        simp [hpid]
      rw [rrLoop_exit_state rfl hdone]
      refine ⟨[⟨p.id, c, c + min q r⟩], rfl, by simp [hceil], rfl, ?_, ?_⟩
      · rw [hmin]
      · rw [hmin]
    · -- quantum-long slice, then recurse
      have hmin : min q r = q := min_eq_left (by omega)
      have h2 : 0 < r - min q r := by omega
      have hceil2 : ceilDiv (r - q).toNat q.toNat = ceilDiv r.toNat q.toNat - 1 := by
        have htv : (r - q).toNat = r.toNat - min q.toNat r.toNat := by omega
        rw [htv]
        exact ceilDiv_sub_min (by omega) (by omega)
      have hceil1 : 1 ≤ ceilDiv r.toNat q.toNat := ceilDiv_pos (by omega) (by omega)
      rw [hloop, hstep0, if_pos h2]
      simp only [hmin]
      obtain ⟨L', hg, hlen, hhead, hfin, hcur⟩ := ih (c + q) (r - q)
        (fun j => if j = 0 then r - q else f j) (g0 ++ [⟨p.id, c, c + q⟩])
        (by omega) (by omega) (by simp)
      have hg2 : (rrLoop [p] q fuel (rrSingleState
          (fun j => if j = 0 then r - q else f j)
          (g0 ++ [⟨p.id, c, c + q⟩]) (c + q) p.id)).gantt =
          g0 ++ (⟨p.id, c, c + q⟩ :: L') := by
        rw [hg]
        simp
      have hlen2 : (⟨p.id, c, c + q⟩ :: L' : List Interval).length =
          ceilDiv r.toNat q.toNat := by
        simp only [List.length_cons, hlen]
        omega
      have hfin2 : (rrLoop [p] q fuel (rrSingleState
          (fun j => if j = 0 then r - q else f j)
          (g0 ++ [⟨p.id, c, c + q⟩]) (c + q) p.id)).finishTime =
          [(p.id, c + r)] := by
        rw [hfin]
        have h3 : c + q + (r - q) = c + r := by ring
        rw [h3]
      have hcur2 : (rrLoop [p] q fuel (rrSingleState
          (fun j => if j = 0 then r - q else f j)
          (g0 ++ [⟨p.id, c, c + q⟩]) (c + q) p.id)).currentTime = c + r := by
        rw [hcur]
        ring
      exact ⟨⟨p.id, c, c + q⟩ :: L', hg2, hlen2, rfl, hfin2, hcur2⟩

theorem range_map_fn {β : Type} (ps : List Process) (h : Process → β) :
    (List.range ps.length).map (fun i => h (ps.getD i default)) = ps.map h := by
  apply List.ext_getElem
  · simp
  · intro i h1 h2
    simp only [List.getElem_map, List.getElem_range]
    rw [List.getD_eq_getElem?_getD, List.getElem?_eq_getElem (by simpa using h2)]
    simp

/-- The fuel given to the Round-Robin loop is linear in the number of
processes plus the total number of quantum slices `Σᵢ ⌈burstᵢ/quantum⌉`. -/
theorem rrFuel_le (ps : List Process) (q : Int) :
    rrFuel ps q ≤ 3 * ps.length +
      (ps.map (fun p => ceilDiv p.burstTime.toNat q.toNat)).sum := by
  unfold rrFuel rrMeasure
  have h1 : rrNotEnq ps (rrInit ps).enqueued ≤ ps.length := by
    unfold rrNotEnq
    calc ((List.range ps.length).filter
          (fun i => !((rrInit ps).enqueued.contains (pidAt ps i)))).length
        ≤ (List.range ps.length).length := List.length_filter_le _ _
      _ = ps.length := List.length_range _
  have h2 : rrCeilSum ps q (rrInit ps).rem =
      (ps.map (fun p => ceilDiv p.burstTime.toNat q.toNat)).sum := by
    unfold rrCeilSum
    have hrem : ∀ i, (rrInit ps).rem i = burstAt ps i := fun i => rfl
    have hcongr : (List.range ps.length).map
        (fun i => ceilDiv ((rrInit ps).rem i).toNat q.toNat) =
        (List.range ps.length).map
          (fun i => ceilDiv ((ps.getD i default).burstTime).toNat q.toNat) := by
      apply List.map_congr_left
      intro i _
      rw [hrem]
      rfl
    rw [hcongr, range_map_fn ps (fun p => ceilDiv p.burstTime.toNat q.toNat)]
  have h3 : (rrInit ps).queue.length ≤ ps.length := by
    obtain ⟨F, heq, hF, hnd, _⟩ := enqueueIf_spec ps
      (fun i => decide (arrAt ps i ≤ 0)) (rrSorted ps) [] []
    have hqueue : (rrInit ps).queue = F := by
      unfold rrInit
      simp only [heq, List.nil_append]
    rw [hqueue]
    have hsub : F ⊆ List.range ps.length := fun k hk =>
      (rrSorted_perm ps).subset (hF k hk).1
    have hFnd : F.Nodup := hnd.of_map
    calc F.length ≤ (List.range ps.length).length :=
          (hFnd.subperm hsub).length_le
      _ = ps.length := List.length_range _
  omega

theorem fcfs_single (p : Process) (harr : 0 ≤ p.arrivalTime) :
    fcfs [p] = ⟨[⟨p.id, p.arrivalTime, p.arrivalTime + p.burstTime⟩],
      [mkResult p p.arrivalTime (p.arrivalTime + p.burstTime)]⟩ := by
  have hs : fcfsSorted [p] = [p] := List.perm_singleton.mp (fcfsSorted_perm [p])
  have hstart : (if (0 : Int) < p.arrivalTime then p.arrivalTime else 0) =
      p.arrivalTime := by
    by_cases h : (0 : Int) < p.arrivalTime
    · rw [if_pos h]
    · rw [if_neg h]
      omega
  unfold fcfs
  rw [hs]
  simp only [fcfsRun, hstart]

theorem schedT_single (p : Process) (harr : 0 ≤ p.arrivalTime) :
    schedT [p] 0 = p.arrivalTime := by
  unfold schedT
  by_cases h : p.arrivalTime ≤ 0
  · have h0 : p.arrivalTime = 0 := le_antisymm h harr
    have hfil : ([p].filter (fun x => decide (x.arrivalTime ≤ (0 : Int)))) = [p] := by
      simp [h]
    rw [hfil]
    simp [h0]
  · have hfil : ([p].filter (fun x => decide (x.arrivalTime ≤ (0 : Int)))) = [] := by
      simp [h]
    rw [hfil]
    simp [minArrival]

theorem schedLoop_single (better : Process → Process → Bool) (p : Process)
    (harr : 0 ≤ p.arrivalTime) :
    schedLoop better 1 [p] 0 =
      ([⟨p.id, p.arrivalTime, p.arrivalTime + p.burstTime⟩],
       [(p.id, mkResult p p.arrivalTime (p.arrivalTime + p.burstTime))]) := by
  have ht := schedT_single p harr
  have hfil : ([p].filter (fun x => decide (x.arrivalTime ≤ schedT [p] 0))) = [p] := by
    rw [ht]
    simp
  unfold schedLoop
  dsimp only
  rw [hfil]
  simp only [pickFirstMin, List.foldl_nil, ht, List.erase_cons_head]
  rfl

theorem sjf_single (p : Process) (harr : 0 ≤ p.arrivalTime) :
    sjf [p] = ⟨[⟨p.id, p.arrivalTime, p.arrivalTime + p.burstTime⟩],
      [some (mkResult p p.arrivalTime (p.arrivalTime + p.burstTime))]⟩ := by
  unfold sjf
  rw [show ([p] : List Process).length = 1 from rfl, schedLoop_single sjfBetter p harr]
  simp [lookupLast, List.lookup]

theorem priority_single (p : Process) (harr : 0 ≤ p.arrivalTime) :
    (priorityScheduling [p]).gantt =
      [⟨p.id, p.arrivalTime, p.arrivalTime + p.burstTime⟩] ∧
    (priorityScheduling [p]).results =
      [some (mkResult p p.arrivalTime (p.arrivalTime + p.burstTime))] := by
  unfold priorityScheduling
  rw [show ([p] : List Process).length = 1 from rfl, schedLoop_single prioBetter p harr]
  constructor
  · rfl
  · simp [lookupLast, List.lookup]

/-- Projection bridges for `roundRobin`. -/
def rrResultOf (s : RRState) (p : Process) : ProcResult :=
  let ft := (s.finishTime.lookup p.id).getD s.currentTime
  ⟨p.id, p.arrivalTime, p.burstTime, p.priority, ft - p.arrivalTime - p.burstTime,
    ft - p.arrivalTime⟩

theorem roundRobin_gantt_eq (ps : List Process) (q : Int) :
    (roundRobin ps q).gantt = (rrLoop ps q (rrFuel ps q) (rrInit ps)).gantt := rfl

theorem roundRobin_results_eq (ps : List Process) (q : Int) :
    (roundRobin ps q).results =
      ps.map (rrResultOf (rrLoop ps q (rrFuel ps q) (rrInit ps))) := rfl

/-- The whole single-process Round-Robin run. -/
theorem roundRobin_single (p : Process) (q : Int) (harr : 0 ≤ p.arrivalTime)
    (hburst : 1 ≤ p.burstTime) (hq : 1 ≤ q) :
    ∃ L : List Interval,
      (roundRobin [p] q).gantt = L ∧
      L.length = ceilDiv p.burstTime.toNat q.toNat ∧
      L.head? = some ⟨p.id, p.arrivalTime, p.arrivalTime + min q p.burstTime⟩ ∧
      (roundRobin [p] q).results =
        [⟨p.id, p.arrivalTime, p.burstTime, p.priority, 0, p.burstTime⟩] := by
  have hpid : pidAt [p] 0 = p.id := rfl
  have harr0 : arrAt [p] 0 = p.arrivalTime := rfl
  have hfuel0 : ceilDiv p.burstTime.toNat q.toNat ≤ rrFuel [p] q := by
    unfold rrFuel rrMeasure rrCeilSum
    have h2 : ((List.range ([p] : List Process).length).map
        (fun i => ceilDiv ((rrInit [p]).rem i).toNat q.toNat)).sum =
        ceilDiv p.burstTime.toNat q.toNat := by
      have h1 : List.range ([p] : List Process).length = [0] := by
        simp [List.range_succ]
      rw [h1]
      rfl
    omega
  by_cases hcase : p.arrivalTime ≤ 0
  · -- enqueued at initialisation
    have h0 : p.arrivalTime = 0 := le_antisymm hcase harr
    have hinit : rrInit [p] = rrSingleState (fun i => burstAt [p] i) [] 0 p.id := by
      unfold rrInit rrSingleState
      rw [rrSorted_single]
      have hc : (decide (arrAt [p] 0 ≤ 0) && !(([] : List Int).contains
          (pidAt [p] 0))) = true := by
        show (decide (p.arrivalTime ≤ 0) && !(([] : List Int).contains p.id)) = true
        simp [h0]
      simp [enqueueIf, hc, hpid]
      have hle : arrAt [p] 0 ≤ 0 := by rw [harr0, h0]
      simp [hle]
    obtain ⟨L, hg, hlen, hhead, hfin, hcur⟩ := rr_single_loop hq (rrFuel [p] q) 0
      p.burstTime (fun i => burstAt [p] i) [] hburst hfuel0 rfl
    rw [← hinit] at hg hfin hcur
    refine ⟨L, ?_, hlen, ?_, ?_⟩
    · rw [roundRobin_gantt_eq, hg]
      simp
    · rw [hhead, h0]
    · rw [roundRobin_results_eq, List.map_cons, List.map_nil]
      unfold rrResultOf
      rw [hfin]
      simp only [List.lookup, beq_self_eq_true, Option.getD_some]
      have h1 : 0 + p.burstTime - p.arrivalTime - p.burstTime = 0 := by
        rw [h0]; ring
      have h2 : 0 + p.burstTime - p.arrivalTime = p.burstTime := by
        rw [h0]; ring
      rw [h1, h2]
  · -- idle jump first
    have hinit : rrInit [p] = rrEmptyState (fun i => burstAt [p] i) := by
      unfold rrInit rrEmptyState
      rw [rrSorted_single]
      have hc : (decide (arrAt [p] 0 ≤ 0) && !(([] : List Int).contains
          (pidAt [p] 0))) = false := by
        show (decide (p.arrivalTime ≤ 0) && !(([] : List Int).contains p.id)) = false
        simp [hcase]
      simp [enqueueIf, hc]
      have hle : ¬ arrAt [p] 0 ≤ 0 := by rw [harr0]; omega
      simp [hle]
    have hpend : rrPending [p] (rrEmptyState (fun i => burstAt [p] i)) = true := by
      apply rrPending_iff.mpr
      refine ⟨0, by simp, ?_, by simp [rrEmptyState]⟩
      show (0 : Int) < burstAt [p] 0
      exact lt_of_lt_of_le zero_lt_one hburst
    have hnext : rrNextArrival [p] (rrEmptyState (fun i => burstAt [p] i)) =
        some 0 := by
      unfold rrNextArrival
      rw [rrSorted_single]
      have hfil : (([0] : List Nat).filter (fun i =>
          !((rrEmptyState (fun i => burstAt [p] i)).enqueued.contains
            (pidAt [p] i)))) = [0] := by
        simp [rrEmptyState]
      rw [hfil]
      have hms : List.insertionSort
          (fun i j => decide (arrAt [p] i ≤ arrAt [p] j) = true) [0] = [0] := rfl
      rw [hms]
      rfl
    have hstep : rrStep [p] q (rrEmptyState (fun i => burstAt [p] i)) =
        rrSingleState (fun i => burstAt [p] i) [] p.arrivalTime p.id := by
      unfold rrStep
      rw [show (rrEmptyState (fun i => burstAt [p] i)).queue = [] from rfl]
      dsimp only
      rw [hnext]
      dsimp only
      rw [rrSorted_single]
      rw [show (rrEmptyState (fun i => burstAt [p] i)).enqueued = [] from rfl]
      have he : enqueueIf [p] (fun i => decide (arrAt [p] i ≤ arrAt [p] 0))
          [0] [] [] = ([0], [p.id]) := by
        have hc : (decide (arrAt [p] 0 ≤ arrAt [p] 0) && !(([] : List Int).contains
            (pidAt [p] 0))) = true := by
          simp
        simp [enqueueIf, hc, hpid]
      rw [he]
      simp [rrEmptyState, rrSingleState, harr0]
    have hfuel1 : rrFuel [p] q = 2 + ceilDiv p.burstTime.toNat q.toNat := by
      unfold rrFuel rrMeasure rrNotEnq rrCeilSum
      rw [hinit]
      have h1 : List.range ([p] : List Process).length = [0] := by
        simp [List.range_succ]
      rw [h1]
      show 2 * (([0].filter (fun i => !(([] : List Int).contains
        (pidAt [p] i)))).length) + _ + ([] : List Nat).length = _
      simp [rrEmptyState]
      rfl
    obtain ⟨f2, hfeq⟩ : ∃ f2, rrFuel [p] q = f2 + 1 :=
      ⟨1 + ceilDiv p.burstTime.toNat q.toNat, by rw [hfuel1]; ring⟩
    have hloop1 : rrLoop [p] q (rrFuel [p] q) (rrInit [p]) =
        rrLoop [p] q f2 (rrSingleState (fun i => burstAt [p] i) [] p.arrivalTime
          p.id) := by
      rw [hfeq, hinit]
      rw [show rrLoop [p] q (f2 + 1) (rrEmptyState (fun i => burstAt [p] i)) =
        (if ((rrEmptyState (fun i => burstAt [p] i)).queue.isEmpty &&
            !(rrPending [p] (rrEmptyState (fun i => burstAt [p] i)))) = true
          then rrEmptyState (fun i => burstAt [p] i)
          else if ((rrEmptyState (fun i => burstAt [p] i)).queue.isEmpty &&
              (rrNextArrival [p] (rrEmptyState (fun i => burstAt [p] i))).isNone) =
              true
            then rrEmptyState (fun i => burstAt [p] i)
            else rrLoop [p] q f2 (rrStep [p] q
              (rrEmptyState (fun i => burstAt [p] i)))) from rfl]
      rw [hpend, hnext, hstep]
      simp
    have hfuel2 : ceilDiv p.burstTime.toNat q.toNat ≤ f2 := by omega
    obtain ⟨L, hg, hlen, hhead, hfin, hcur⟩ := rr_single_loop hq f2 p.arrivalTime
      p.burstTime (fun i => burstAt [p] i) [] hburst hfuel2 rfl
    refine ⟨L, ?_, hlen, hhead, ?_⟩
    · rw [roundRobin_gantt_eq, hloop1, hg]
      simp
    · rw [roundRobin_results_eq, List.map_cons, List.map_nil]
      unfold rrResultOf
      rw [hloop1, hfin]
      simp only [List.lookup, beq_self_eq_true, Option.getD_some]
      have h1 : p.arrivalTime + p.burstTime - p.arrivalTime - p.burstTime = 0 := by
        ring
      have h2 : p.arrivalTime + p.burstTime - p.arrivalTime = p.burstTime := by
        ring
      rw [h1, h2]

/-! ### Claim-level definitions and bridges -/

theorem fcfs_gantt_eq (ps : List Process) :
    (fcfs ps).gantt = (fcfsRun 0 (fcfsSorted ps)).1 := rfl

theorem fcfs_results_eq (ps : List Process) :
    (fcfs ps).results = (fcfsRun 0 (fcfsSorted ps)).2 := rfl

theorem forall₂_mem_right {α β : Type} {R : α → β → Prop} :
    ∀ {l₁ : List α} {l₂ : List β}, List.Forall₂ R l₁ l₂ →
      ∀ b ∈ l₂, ∃ a ∈ l₁, R a b := by
  intro l₁ l₂ h
  induction h with
  | nil => intro b hb; simp at hb
  | cons hr _ ih =>
    intro b hb
    rcases List.mem_cons.mp hb with heq | hb
    · subst heq
      exact ⟨_, by simp, hr⟩
    · obtain ⟨a, ha, har⟩ := ih b hb
      exact ⟨a, List.mem_cons_of_mem _ ha, har⟩

theorem ids_inj {ps : List Process} (hwf : WellFormed ps) :
    ∀ p ∈ ps, ∀ p2 ∈ ps, p.id = p2.id → p = p2 :=
  fun p hp p2 hp2 h => List.inj_on_of_nodup_map hwf.2 hp hp2 h

/-- The metric invariant of a result record: turnaround = waiting + burst
and turnaround ≥ burst ≥ 1 (hence no negative waiting time). -/
def MetricsOk (r : ProcResult) : Prop :=
  r.turnaroundTime = r.waitingTime + r.burstTime ∧ 1 ≤ r.burstTime ∧
    r.burstTime ≤ r.turnaroundTime

instance (r : ProcResult) : Decidable (MetricsOk r) := by
  unfold MetricsOk; infer_instance

/-- The timeline invariant: intervals positive, consecutive intervals do not
overlap (so the timeline is sorted by start time, idle time appearing only
as gaps), and each interval belongs to an input process that has already
arrived at its start. -/
def TimelineOk (ps : List Process) (timeline : List Interval) : Prop :=
  List.Chain' (fun a b => a.stop ≤ b.start) timeline ∧
  ∀ iv ∈ timeline, iv.start < iv.stop ∧ (∃ p ∈ ps, p.id = iv.pid) ∧
    ∀ p ∈ ps, p.id = iv.pid → p.arrivalTime ≤ iv.start

instance (ps : List Process) (timeline : List Interval) :
    Decidable (TimelineOk ps timeline) := by
  unfold TimelineOk; infer_instance

/-- A result record echoes the identity fields of its process. -/
def EchoOk (p : Process) (r : ProcResult) : Prop :=
  r.id = p.id ∧ r.arrivalTime = p.arrivalTime ∧ r.burstTime = p.burstTime ∧
    r.priority = p.priority

instance (p : Process) (r : ProcResult) : Decidable (EchoOk p r) := by
  unfold EchoOk; infer_instance

/-- Lexicographic "not worse" order on the SJF selection key
(burst time, arrival time, id). -/
def sjfKeyLe (p x : Process) : Prop :=
  p.burstTime < x.burstTime ∨ (p.burstTime = x.burstTime ∧
    (p.arrivalTime < x.arrivalTime ∨ (p.arrivalTime = x.arrivalTime ∧ p.id ≤ x.id)))

/-- A crafted input where the low-priority process 2 waits 9 > 3·2 time
units under Priority scheduling. -/
def stInput : List Process := [⟨1, 0, 10, 1⟩, ⟨2, 1, 2, 5⟩]

/-- Input whose (arrival, id) order differs from its list order. -/
def c3Input : List Process := [⟨2, 5, 1, 1⟩, ⟨1, 0, 1, 1⟩]

/-- A single process needing two quantum-1 slices. -/
def c8Input : List Process := [⟨1, 0, 2, 1⟩]

/-! ### Claims -/

/-- C10: on the empty process list all four algorithms return normally
(they are total functions in this embedding) with an empty timeline and an
empty results list, and the Priority algorithm's `starvationRisk` is
`false`. -/
theorem claim_C10 :
    fcfs [] = ⟨[], []⟩ ∧ sjf [] = ⟨[], []⟩ ∧
    priorityScheduling [] = ⟨[], [], false⟩ ∧
    ∀ q : Int, roundRobin [] q = ⟨[], []⟩ := by
  refine ⟨rfl, rfl, rfl, ?_⟩
  intro q
  rfl

/-- C7: the Priority algorithm's `starvationRisk` flag is true exactly when
some result has waiting time exceeding three times its burst time (the
other three algorithms return `SimOutput`/`SJFOutput` values, which by
their type carry no such flag). -/
theorem claim_C7 (ps : List Process) :
    (priorityScheduling ps).starvationRisk = true ↔
      ∃ ro ∈ (priorityScheduling ps).results, ∃ r, ro = some r ∧
        3 * r.burstTime < r.waitingTime :=
  starvationRisk_iff ps

/-- C7 witness: on `stInput` the flag is indeed equivalent to the existence
of a starved result (and concretely evaluates to `true`). -/
theorem claim_C7_witness :
    ((priorityScheduling stInput).starvationRisk = true ↔
      ∃ ro ∈ (priorityScheduling stInput).results, ∃ r, ro = some r ∧
        3 * r.burstTime < r.waitingTime) ∧
    (priorityScheduling stInput).starvationRisk = true :=
  ⟨claim_C7 stInput, by decide⟩

/-- C6: FCFS sorts the processes by (arrival time, id), runs each to
completion in that order — one interval per process, starting no earlier
than the arrival (the clock advances to the arrival time when behind) and
ending exactly one burst later — and on the §8 example produces the
specified timeline and waiting times. -/
theorem claim_C6 :
    (∀ ps : List Process,
      List.Pairwise (fun a b => arrivalIdLe a b = true) (fcfsSorted ps) ∧
      List.Forall₂ (fun p iv => iv.pid = p.id ∧ p.arrivalTime ≤ iv.start ∧
        iv.stop = iv.start + p.burstTime) (fcfsSorted ps) (fcfs ps).gantt ∧
      (fcfs ps).gantt.length = ps.length) ∧
    (fcfs exInput).gantt = [⟨1, 0, 5⟩, ⟨2, 5, 8⟩, ⟨3, 8, 16⟩, ⟨4, 16, 18⟩] ∧
    (fcfs exInput).results.map ProcResult.waitingTime = [0, 3, 4, 10] := by
  refine ⟨?_, by decide, by decide⟩
  intro ps
  refine ⟨fcfsSorted_sorted ps, ?_, ?_⟩
  · rw [fcfs_gantt_eq]
    exact fcfsRun_forall₂_gantt (fcfsSorted ps) 0
  · have h := (fcfsRun_forall₂_gantt (fcfsSorted ps) 0).length_eq
    rw [fcfs_gantt_eq, ← h]
    exact (fcfsSorted_perm ps).length_eq

/-- C6 witness: the general part instantiated on the §8 example. -/
theorem claim_C6_witness :
    List.Pairwise (fun a b => arrivalIdLe a b = true) (fcfsSorted exInput) ∧
    (fcfs exInput).gantt.length = exInput.length ∧
    (fcfs exInput).gantt = [⟨1, 0, 5⟩, ⟨2, 5, 8⟩, ⟨3, 8, 16⟩, ⟨4, 16, 18⟩] :=
  ⟨(claim_C6.1 exInput).1, (claim_C6.1 exInput).2.2, claim_C6.2.1⟩

/-- C5: at each SJF decision point the selected process is one of the
arrived pending processes and is minimal among them for the key
(burst time, arrival time, id); it produces the next emitted interval.
On the §8 example SJF yields the specified timeline and waiting times. -/
theorem claim_C5 :
    (∀ (pending : List Process) (cur : Int) (fuel : Nat), pending ≠ [] →
      ∃ p ∈ pending.filter (fun x => decide (x.arrivalTime ≤ schedT pending cur)),
        (∀ x ∈ pending.filter (fun x => decide (x.arrivalTime ≤ schedT pending cur)),
          sjfKeyLe p x) ∧
        (schedLoop sjfBetter (fuel + 1) pending cur).1.head? =
          some ⟨p.id, schedT pending cur, schedT pending cur + p.burstTime⟩) ∧
    (sjf exInput).gantt = [⟨1, 0, 5⟩, ⟨2, 5, 8⟩, ⟨4, 8, 10⟩, ⟨3, 10, 18⟩] ∧
    (sjf exInput).results.map (Option.map ProcResult.waitingTime) =
      [some 0, some 3, some 6, some 2] := by
  refine ⟨?_, by decide, by decide⟩
  intro pending cur fuel hne
  obtain ⟨p, hpick, hpm, hple, heq⟩ := schedLoop_succ sjfBetter fuel cur hne
  have hmin := pickFirstMin_min sjfBetter_asymm sjfBetter_neg_trans hpick
  refine ⟨p, pickFirstMin_mem hpick, ?_, by rw [heq]; rfl⟩
  intro x hx
  have hb := hmin x hx
  unfold sjfBetter at hb
  rw [decide_eq_false_iff_not] at hb
  unfold sjfKeyLe
  omega

/-- C5 witness: the selection property instantiated at the §8 example's
initial decision point, plus the concrete example facts. -/
theorem claim_C5_witness :
    (∃ p ∈ exInput.filter (fun x => decide (x.arrivalTime ≤ schedT exInput 0)),
      (∀ x ∈ exInput.filter (fun x => decide (x.arrivalTime ≤ schedT exInput 0)),
        sjfKeyLe p x) ∧
      (schedLoop sjfBetter (3 + 1) exInput 0).1.head? =
        some ⟨p.id, schedT exInput 0, schedT exInput 0 + p.burstTime⟩) ∧
    (sjf exInput).gantt = [⟨1, 0, 5⟩, ⟨2, 5, 8⟩, ⟨4, 8, 10⟩, ⟨3, 10, 18⟩] :=
  ⟨claim_C5.1 exInput 0 3 (by decide), claim_C5.2.1⟩

theorem rrResultOf_lookup {s : RRState} {p : Process} {f : Int}
    (hf : s.finishTime.lookup p.id = some f) :
    rrResultOf s p = ⟨p.id, p.arrivalTime, p.burstTime, p.priority,
      f - p.arrivalTime - p.burstTime, f - p.arrivalTime⟩ := by
  unfold rrResultOf
  rw [hf]
  rfl

theorem timelineOk_of_witness {ps : List Process} (hwf : WellFormed ps)
    {timeline : List Interval}
    (hchain : List.Chain' (fun a b => a.stop ≤ b.start) timeline)
    (hmem : ∀ iv ∈ timeline, iv.start < iv.stop ∧
      ∃ p ∈ ps, p.id = iv.pid ∧ p.arrivalTime ≤ iv.start) :
    TimelineOk ps timeline := by
  unfold TimelineOk
  refine ⟨hchain, ?_⟩
  intro iv hiv
  obtain ⟨hlt, p0, hp0, hid0, harr0⟩ := hmem iv hiv
  refine ⟨hlt, ⟨p0, hp0, hid0⟩, ?_⟩
  intro p hp hid
  have hpe : p = p0 := ids_inj hwf p hp p0 hp0 (hid.trans hid0.symm)
  rw [hpe]
  exact harr0

/-- C1: for well-formed input every result record of each of the four
algorithms satisfies turnaround = waiting + burst and
turnaround ≥ burst ≥ 1 (so no negative waiting time). SJF and Priority
results are lookups that may in principle be absent, hence the option
layer there. -/
theorem claim_C1 (ps : List Process) (hwf : WellFormed ps) (q : Int)
    (hq : 1 ≤ q) :
    (∀ r ∈ (fcfs ps).results, MetricsOk r) ∧
    (∀ ro ∈ (sjf ps).results, ∀ r, ro = some r → MetricsOk r) ∧
    (∀ ro ∈ (priorityScheduling ps).results, ∀ r, ro = some r → MetricsOk r) ∧
    (∀ r ∈ (roundRobin ps q).results, MetricsOk r) := by
  have hb : ∀ p ∈ ps, 1 ≤ p.burstTime := fun p hp => (hwf.1 p hp).2.1
  refine ⟨?_, ?_, ?_, ?_⟩
  · intro r hr
    rw [fcfs_results_eq] at hr
    obtain ⟨p, hp, hid, harr2, hbr, hprio, hturn, hwait⟩ :=
      forall₂_mem_right (fcfsRun_forall₂_results (fcfsSorted ps) 0) r hr
    have hb1 : 1 ≤ p.burstTime := hb p ((fcfsSorted_perm ps).subset hp)
    unfold MetricsOk
    refine ⟨hturn, by omega, by omega⟩
  · intro ro hro r hr
    rw [sjf_results_eq] at hro
    obtain ⟨h1, h2, h3⟩ := schedResults_metrics sjfBetter ps ps.length 0 hb ro hro r hr
    unfold MetricsOk
    refine ⟨h1, h2, by omega⟩
  · intro ro hro r hr
    rw [priority_results_eq] at hro
    obtain ⟨h1, h2, h3⟩ := schedResults_metrics prioBetter ps ps.length 0 hb ro hro r hr
    unfold MetricsOk
    refine ⟨h1, h2, by omega⟩
  · intro r hr
    rw [roundRobin_results_eq] at hr
    obtain ⟨p, hp, heq⟩ := List.mem_map.mp hr
    obtain ⟨f, hf, hge, _⟩ := rr_finish_lookup hwf hq p hp
    rw [rrResultOf_lookup hf] at heq
    subst heq
    have hb1 : 1 ≤ p.burstTime := hb p hp
    unfold MetricsOk
    dsimp only
    refine ⟨by omega, hb1, by omega⟩

/-- C1 witness: the metric invariant instantiated on the §8 example with
quantum 2. -/
theorem claim_C1_witness :
    WellFormed exInput ∧ (1 : Int) ≤ 2 ∧
    ((∀ r ∈ (fcfs exInput).results, MetricsOk r) ∧
      (∀ ro ∈ (sjf exInput).results, ∀ r, ro = some r → MetricsOk r) ∧
      (∀ ro ∈ (priorityScheduling exInput).results, ∀ r, ro = some r →
        MetricsOk r) ∧
      (∀ r ∈ (roundRobin exInput 2).results, MetricsOk r)) :=
  ⟨by decide, by decide, claim_C1 exInput (by decide) 2 (by decide)⟩

/-- C2: for well-formed input each algorithm's timeline consists of
positive-length intervals, consecutive intervals never overlap (so the
timeline is sorted by start time, idle time showing up only as gaps), and
each interval names an input process that has arrived by the interval's
start. -/
theorem claim_C2 (ps : List Process) (hwf : WellFormed ps) (q : Int)
    (hq : 1 ≤ q) :
    TimelineOk ps (fcfs ps).gantt ∧ TimelineOk ps (sjf ps).gantt ∧
    TimelineOk ps (priorityScheduling ps).gantt ∧
    TimelineOk ps (roundRobin ps q).gantt := by
  have hb : ∀ p ∈ ps, 1 ≤ p.burstTime := fun p hp => (hwf.1 p hp).2.1
  have hbs : ∀ p ∈ fcfsSorted ps, 1 ≤ p.burstTime := fun p hp =>
    hb p ((fcfsSorted_perm ps).subset hp)
  refine ⟨?_, ?_, ?_, ?_⟩
  · rw [fcfs_gantt_eq]
    refine timelineOk_of_witness hwf (fcfsRun_chain (fcfsSorted ps) hbs 0).1 ?_
    intro iv hiv
    obtain ⟨p, hp, hid, harr, hstop⟩ :=
      (fcfsRun_gantt_mem (fcfsSorted ps) hbs 0 iv hiv).2
    have hb1 : 1 ≤ p.burstTime := hbs p hp
    exact ⟨by omega, p, (fcfsSorted_perm ps).subset hp, hid.symm, harr⟩
  · rw [sjf_gantt_eq]
    obtain ⟨hchain, hmem⟩ := schedLoop_gantt sjfBetter ps.length ps 0 hb
    refine timelineOk_of_witness hwf hchain ?_
    intro iv hiv
    obtain ⟨_, p, hp, hid, harr, hstop⟩ := hmem iv hiv
    have hb1 : 1 ≤ p.burstTime := hb p hp
    exact ⟨by omega, p, hp, hid.symm, harr⟩
  · rw [priority_gantt_eq]
    obtain ⟨hchain, hmem⟩ := schedLoop_gantt prioBetter ps.length ps 0 hb
    refine timelineOk_of_witness hwf hchain ?_
    intro iv hiv
    obtain ⟨_, p, hp, hid, harr, hstop⟩ := hmem iv hiv
    have hb1 : 1 ≤ p.burstTime := hb p hp
    exact ⟨by omega, p, hp, hid.symm, harr⟩
  · rw [roundRobin_gantt_eq]
    obtain ⟨hinv, _, _⟩ := rr_final hwf hq
    exact timelineOk_of_witness hwf hinv.gantt_chain hinv.gantt_ok

/-- C2 witness: the timeline invariant instantiated on the §8 example with
quantum 2. -/
theorem claim_C2_witness :
    WellFormed exInput ∧ (1 : Int) ≤ 2 ∧
    (TimelineOk exInput (fcfs exInput).gantt ∧
      TimelineOk exInput (sjf exInput).gantt ∧
      TimelineOk exInput (priorityScheduling exInput).gantt ∧
      TimelineOk exInput (roundRobin exInput 2).gantt) :=
  ⟨by decide, by decide, claim_C2 exInput (by decide) 2 (by decide)⟩

/-- C3 counterexample: FCFS returns its results in execution order, not
input order. On the well-formed input `c3Input` — process 2 arriving at 5
listed before process 1 arriving at 0 — the results list does not echo the
input list positionally. -/
theorem claim_C3_counterexample :
    WellFormed c3Input ∧
    ¬ List.Forall₂ EchoOk c3Input (fcfs c3Input).results := by decide

/-- C3 amended: SJF, Priority and Round-Robin return one result per input
process in input order; FCFS instead returns them in execution order, i.e.
positionally matching the input sorted by (arrival time, id). In each case
every entry echoes its process's identity fields. -/
theorem claim_C3_amended (ps : List Process) (hwf : WellFormed ps)
    (q : Int) :
    List.Forall₂ EchoOk (fcfsSorted ps) (fcfs ps).results ∧
    List.Forall₂ (fun p ro => ∃ r, ro = some r ∧ EchoOk p r) ps
      (sjf ps).results ∧
    List.Forall₂ (fun p ro => ∃ r, ro = some r ∧ EchoOk p r) ps
      (priorityScheduling ps).results ∧
    List.Forall₂ EchoOk ps (roundRobin ps q).results := by
  refine ⟨?_, ?_, ?_, ?_⟩
  · rw [fcfs_results_eq]
    refine (fcfsRun_forall₂_results (fcfsSorted ps) 0).imp ?_
    intro p r h
    exact ⟨h.1, h.2.1, h.2.2.1, h.2.2.2.1⟩
  · rw [sjf_results_eq]
    refine (schedResults_echo sjfBetter hwf.2).imp ?_
    intro p ro h
    obtain ⟨r, hro, h1, h2, h3, h4⟩ := h
    exact ⟨r, hro, h1, h2, h3, h4⟩
  · rw [priority_results_eq]
    refine (schedResults_echo prioBetter hwf.2).imp ?_
    intro p ro h
    obtain ⟨r, hro, h1, h2, h3, h4⟩ := h
    exact ⟨r, hro, h1, h2, h3, h4⟩
  · rw [roundRobin_results_eq]
    rw [List.forall₂_map_right_iff]
    rw [List.forall₂_same]
    intro p hp
    unfold EchoOk rrResultOf
    exact ⟨rfl, rfl, rfl, rfl⟩

/-- C3 amended witness: the per-algorithm result-order property on the §8
example with quantum 2. -/
theorem claim_C3_amended_witness :
    WellFormed exInput ∧
    (List.Forall₂ EchoOk (fcfsSorted exInput) (fcfs exInput).results ∧
      List.Forall₂ (fun p ro => ∃ r, ro = some r ∧ EchoOk p r) exInput
        (sjf exInput).results ∧
      List.Forall₂ (fun p ro => ∃ r, ro = some r ∧ EchoOk p r) exInput
        (priorityScheduling exInput).results ∧
      List.Forall₂ EchoOk exInput (roundRobin exInput 2).results) :=
  ⟨by decide, claim_C3_amended exInput (by decide) 2⟩

/-- One Round-Robin dispatch step from a state whose ready queue has head
`i` and tail `rest`: the head runs for min(quantum, remaining time), one
slice interval is appended, the clock advances by the slice length, the
processes arriving within the half-open slice window and not yet enqueued
(`F`, drawn from the arrival-sorted order) join the queue before the head
is possibly requeued, and the head returns to the back of the queue iff it
still has remaining work; the loop then continues from this new state. -/
def C4Prop (ps : List Process) (q : Int) (s : RRState) (i : Nat)
    (rest : List Nat) : Prop :=
  ∃ F : List Nat,
    (∀ j ∈ F, j < ps.length ∧
      (s.currentTime < arrAt ps j ∧
        arrAt ps j ≤ s.currentTime + min q (s.rem i)) ∧
      pidAt ps j ∉ s.enqueued) ∧
    (∀ j, j < ps.length → s.currentTime < arrAt ps j →
      arrAt ps j ≤ s.currentTime + min q (s.rem i) →
      pidAt ps j ∉ s.enqueued → j ∈ F) ∧
    (rrStep ps q s).gantt = s.gantt ++
      [⟨pidAt ps i, s.currentTime, s.currentTime + min q (s.rem i)⟩] ∧
    (rrStep ps q s).rem i = s.rem i - min q (s.rem i) ∧
    (rrStep ps q s).currentTime = s.currentTime + min q (s.rem i) ∧
    (rrStep ps q s).queue = (if 0 < s.rem i - min q (s.rem i)
      then (rest ++ F) ++ [i] else rest ++ F) ∧
    ∀ fuel : Nat, rrLoop ps q (fuel + 1) s = rrLoop ps q fuel (rrStep ps q s)

/-- C4: the Round-Robin dispatch step behaves as specified: the dequeued
head runs for min(quantum, its remaining time) producing one slice
interval, arrivals within the slice window are enqueued (exactly the
not-yet-enqueued processes arriving in that window) before the head is
re-enqueued, and the head is requeued at the very back iff its remaining
time is still positive. -/
theorem claim_C4 (ps : List Process) (hwf : WellFormed ps) (q : Int)
    (s : RRState) (i : Nat) (rest : List Nat)
    (hqueue : s.queue = i :: rest) :
    C4Prop ps q s i rest := by
  obtain ⟨F, hF, hnd, hall, hstate⟩ := rrStep_run hqueue
  unfold C4Prop
  refine ⟨F, ?_, ?_, ?_, ?_, ?_, ?_, ?_⟩
  · intro j hj
    obtain ⟨h1, h2, h3⟩ := hF j hj
    exact ⟨rrSorted_mem.mp h1, h2, h3⟩
  · intro j hj harr1 harr2 henq
    have hmem := hall j (rrSorted_mem.mpr hj) harr1 harr2
    rw [List.mem_append] at hmem
    rcases hmem with hmem | hmem
    · exact absurd hmem henq
    · obtain ⟨k, hk, hkeq⟩ := List.mem_map.mp hmem
      have hklt : k < ps.length := rrSorted_mem.mp (hF k hk).1
      have hkj : k = j := pidAt_inj hwf.2 hklt hj hkeq
      rw [hkj] at hk
      exact hk
  · rw [hstate]
  · rw [hstate]
    simp
  · rw [hstate]
  · rw [hstate]
  · intro fuel
    exact rrLoop_cons fuel (by rw [hqueue]; simp)

/-- A concrete mid-run Round-Robin state over the §8 example: processes 0
and 1 queued, their ids marked enqueued, clock at 0. -/
def c4State : RRState :=
  ⟨fun j => if j = 0 then 5 else 3, [], [], 0, [0, 1], [1, 2]⟩

/-- C4 witness: the dispatch-step characterisation at a concrete state of
the §8 example with quantum 2. -/
theorem claim_C4_witness :
    WellFormed exInput ∧ c4State.queue = 0 :: [1] ∧
    C4Prop exInput 2 c4State 0 [1] :=
  ⟨by decide, rfl, claim_C4 exInput (by decide) 2 c4State 0 [1] rfl⟩

/-- C8 counterexample: on the single-process input `c8Input` (burst 2)
with quantum 1, Round-Robin emits two slices, so "the timeline has exactly
one interval" fails for Round-Robin when the quantum is below the burst
time. -/
theorem claim_C8_counterexample :
    WellFormed c8Input ∧ (1 : Int) ≤ 1 ∧
    (roundRobin c8Input 1).gantt.length = 2 ∧
    ¬ (roundRobin c8Input 1).gantt.length = 1 := by decide

/-- Single-process behaviour of all four algorithms: FCFS, SJF and
Priority emit exactly one interval starting at the arrival time, with
waiting time 0; Round-Robin emits ⌈burst/quantum⌉ slices — exactly one iff
burst ≤ quantum — the first starting at the arrival time with length
min(quantum, burst), and waiting time 0. -/
def C8Prop (p : Process) (q : Int) : Prop :=
  (fcfs [p]).gantt = [⟨p.id, p.arrivalTime, p.arrivalTime + p.burstTime⟩] ∧
  (fcfs [p]).results.map ProcResult.waitingTime = [0] ∧
  (sjf [p]).gantt = [⟨p.id, p.arrivalTime, p.arrivalTime + p.burstTime⟩] ∧
  (sjf [p]).results.map (Option.map ProcResult.waitingTime) = [some 0] ∧
  (priorityScheduling [p]).gantt =
    [⟨p.id, p.arrivalTime, p.arrivalTime + p.burstTime⟩] ∧
  (priorityScheduling [p]).results.map (Option.map ProcResult.waitingTime) =
    [some 0] ∧
  (roundRobin [p] q).gantt.length = ceilDiv p.burstTime.toNat q.toNat ∧
  ((roundRobin [p] q).gantt.length = 1 ↔ p.burstTime ≤ q) ∧
  (roundRobin [p] q).gantt.head? =
    some ⟨p.id, p.arrivalTime, p.arrivalTime + min q p.burstTime⟩ ∧
  (roundRobin [p] q).results.map ProcResult.waitingTime = [0]

/-- C8 amended: on a well-formed single-process input the three
non-preemptive algorithms produce exactly one interval starting at the
arrival time with waiting time 0, while Round-Robin produces
⌈burst/quantum⌉ slices (exactly one iff burst ≤ quantum), the first
starting at the arrival time, with waiting time 0. -/
theorem claim_C8_amended (p : Process) (hwf : WellFormed [p]) (q : Int)
    (hq : 1 ≤ q) : C8Prop p q := by
  have hp : p ∈ [p] := by simp
  have harr : 0 ≤ p.arrivalTime := (hwf.1 p hp).1
  have hburst : 1 ≤ p.burstTime := (hwf.1 p hp).2.1
  obtain ⟨L, hL, hlen, hhead, hres⟩ := roundRobin_single p q harr hburst hq
  unfold C8Prop
  refine ⟨?_, ?_, ?_, ?_, ?_, ?_, ?_, ?_, ?_, ?_⟩
  · rw [fcfs_single p harr]
  · rw [fcfs_single p harr]
    simp [mkResult]
  · rw [sjf_single p harr]
  · rw [sjf_single p harr]
    simp [mkResult]
  · exact (priority_single p harr).1
  · rw [(priority_single p harr).2]
    simp [mkResult]
  · rw [hL, hlen]
  · rw [hL, hlen]
    have hb1 : 1 ≤ p.burstTime.toNat := by omega
    have hq1 : 1 ≤ q.toNat := by omega
    rw [ceilDiv_eq_one_iff hb1 hq1]
    omega
  · rw [hL]
    exact hhead
  · rw [hres]
    simp

/-- A concrete single process: id 1, arrival 3, burst 5, priority 2. -/
def pEx : Process := ⟨1, 3, 5, 2⟩

/-- C8 amended witness: the single-process behaviour at `pEx` with
quantum 2 (so ⌈5/2⌉ = 3 slices for Round-Robin). -/
theorem claim_C8_amended_witness :
    WellFormed [pEx] ∧ (1 : Int) ≤ 2 ∧ C8Prop pEx 2 :=
  ⟨by decide, by decide, claim_C8_amended pEx (by decide) 2 (by decide)⟩

/-- C9: every run terminates in bounded steps: SJF and Priority complete
within one loop iteration per process (extra fuel does not change the
output), FCFS emits exactly one interval per process, and the Round-Robin
loop reaches its exit condition — empty queue and no pending work — within
`rrFuel` iterations, a bound itself at most 3·n + Σ⌈burst/quantum⌉; extra
fuel leaves its state unchanged. -/
theorem claim_C9 (ps : List Process) (hwf : WellFormed ps) (q : Int)
    (hq : 1 ≤ q) :
    (∀ k, schedLoop sjfBetter (ps.length + k) ps 0 =
      schedLoop sjfBetter ps.length ps 0) ∧
    (∀ k, schedLoop prioBetter (ps.length + k) ps 0 =
      schedLoop prioBetter ps.length ps 0) ∧
    (∀ k, rrLoop ps q (rrFuel ps q + k) (rrInit ps) =
      rrLoop ps q (rrFuel ps q) (rrInit ps)) ∧
    ((rrLoop ps q (rrFuel ps q) (rrInit ps)).queue = [] ∧
      rrPending ps (rrLoop ps q (rrFuel ps q) (rrInit ps)) = false) ∧
    rrFuel ps q ≤ 3 * ps.length +
      (ps.map (fun p => ceilDiv p.burstTime.toNat q.toNat)).sum ∧
    (fcfs ps).gantt.length = ps.length := by
  refine ⟨?_, ?_, ?_, (rr_final hwf hq).2, rrFuel_le ps q, ?_⟩
  · intro k
    exact schedLoop_fuel_irrel sjfBetter (ps.length + k) ps.length ps 0
      (by omega) le_rfl
  · intro k
    exact schedLoop_fuel_irrel prioBetter (ps.length + k) ps.length ps 0
      (by omega) le_rfl
  · intro k
    exact rrLoop_fuel_irrel hq (rrFuel ps q) k (rrInit ps)
      (rrInit_inv hwf).queue_lt le_rfl
  · have h := (fcfsRun_forall₂_gantt (fcfsSorted ps) 0).length_eq
    rw [fcfs_gantt_eq, ← h]
    exact (fcfsSorted_perm ps).length_eq

/-- C9 witness: the termination facts instantiated on the §8 example with
quantum 2. -/
theorem claim_C9_witness :
    WellFormed exInput ∧ (1 : Int) ≤ 2 ∧
    ((rrLoop exInput 2 (rrFuel exInput 2) (rrInit exInput)).queue = [] ∧
      rrPending exInput
        (rrLoop exInput 2 (rrFuel exInput 2) (rrInit exInput)) = false) ∧
    (fcfs exInput).gantt.length = exInput.length :=
  ⟨by decide, by decide, (claim_C9 exInput (by decide) 2 (by decide)).2.2.2.1,
    (claim_C9 exInput (by decide) 2 (by decide)).2.2.2.2.2⟩

end Sched
